import Mathlib

/-!
# Verification of the crunchize execution engine against its specification

This file gives a shallow embedding, in Lean 4, of the parts of the
`crunchize` batch-processing framework (a Python code base) that the
specification's claims are about:

* the YAML-ish dynamic value model (`Val`) with Python truthiness,
* the template/expression resolver `CrunchizeEngine._resolve_variable`
  (`src/crunchize/engine.py`, lines 176-328),
* the per-shot stride-sampling filter used for `file_amount`
  (`engine.py`, lines 440-481),
* path inference `BaseTask._resolve_path_from_item`
  (`src/crunchize/tasks/base.py`, lines 44-92),
* the path-mapping task (`src/crunchize/tasks/pathmap/pathmap.py`),
* the engine constructor's `every_nth` / `file_amount` resolution
  (`engine.py`, lines 58-71), and
* the orchestration loop `CrunchizeEngine.run`
  (`engine.py`, lines 372-650).

Modelling conventions (each noted again at the definition it concerns):

* Python values are modelled by the inductive type `Val`
  (None / bool / int / str / list / dict).  Dictionaries are modelled as
  association lists with string keys, in insertion order, with distinct
  keys; floats are not represented inside `Val` (none of the claims
  depends on a float stored in a document).
* The engine-level `file_amount` fraction is modelled as an exact
  rational (`ℚ`).  The Python code computes `int(n * f)` and
  `round(j * stride)` in IEEE-754 doubles; the rational model agrees
  with the float computation except when the exact product lies within
  one double rounding error of an integer or of a half-integer, which
  cannot happen for the denominators that occur in practice.
* Python `round` is banker's rounding (round half to even), modelled
  exactly by `pyRound` below.
* Exceptions that a modelled function can actually raise are modelled
  with `Except PyErr`; Python code paths that swallow exceptions are
  translated with the same structure as the source.
-/

/-- The single kind of uncaught exception our modelled fragments can raise
(`TypeError` from `list(...)` on a non-iterable, `os.path.basename` on a
non-string, etc.); we also use it for the `NameError` in the engine
constructor, tagged separately. -/
inductive PyErr where
  | typeError
  | valueError
  | nameError
  deriving DecidableEq

/-- Python values as they occur in playbooks, contexts and task results:
`None`, booleans, integers, strings, lists and (string-keyed,
insertion-ordered) dictionaries. -/
inductive Val where
  | vnull
  | vbool (b : Bool)
  | vint (n : Int)
  | vstr (s : String)
  | vlist (xs : List Val)
  | vdict (m : List (String × Val))

mutual

/-- Decidable equality for `Val` (structural; mirrors Python `==` on the
fragment we model, where dictionaries are kept in a canonical key order). -/
def Val.decEq : (a b : Val) → Decidable (a = b)
  | .vnull, .vnull => isTrue rfl
  | .vnull, .vbool _ => isFalse nofun
  | .vnull, .vint _ => isFalse nofun
  | .vnull, .vstr _ => isFalse nofun
  | .vnull, .vlist _ => isFalse nofun
  | .vnull, .vdict _ => isFalse nofun
  | .vbool _, .vnull => isFalse nofun
  | .vbool a, .vbool b =>
    if h : a = b then isTrue (by rw [h]) else isFalse (fun hh => by cases hh; exact h rfl)
  | .vbool _, .vint _ => isFalse nofun
  | .vbool _, .vstr _ => isFalse nofun
  | .vbool _, .vlist _ => isFalse nofun
  | .vbool _, .vdict _ => isFalse nofun
  | .vint _, .vnull => isFalse nofun
  | .vint _, .vbool _ => isFalse nofun
  | .vint a, .vint b =>
    if h : a = b then isTrue (by rw [h]) else isFalse (fun hh => by cases hh; exact h rfl)
  | .vint _, .vstr _ => isFalse nofun
  | .vint _, .vlist _ => isFalse nofun
  | .vint _, .vdict _ => isFalse nofun
  | .vstr _, .vnull => isFalse nofun
  | .vstr _, .vbool _ => isFalse nofun
  | .vstr _, .vint _ => isFalse nofun
  | .vstr a, .vstr b =>
    if h : a = b then isTrue (by rw [h]) else isFalse (fun hh => by cases hh; exact h rfl)
  | .vstr _, .vlist _ => isFalse nofun
  | .vstr _, .vdict _ => isFalse nofun
  | .vlist _, .vnull => isFalse nofun
  | .vlist _, .vbool _ => isFalse nofun
  | .vlist _, .vint _ => isFalse nofun
  | .vlist _, .vstr _ => isFalse nofun
  | .vlist xs, .vlist ys =>
    match Val.decEqList xs ys with
    | isTrue h => isTrue (by rw [h])
    | isFalse h => isFalse (fun hh => by cases hh; exact h rfl)
  | .vlist _, .vdict _ => isFalse nofun
  | .vdict _, .vnull => isFalse nofun
  | .vdict _, .vbool _ => isFalse nofun
  | .vdict _, .vint _ => isFalse nofun
  | .vdict _, .vstr _ => isFalse nofun
  | .vdict _, .vlist _ => isFalse nofun
  | .vdict m, .vdict m' =>
    match Val.decEqDict m m' with
    | isTrue h => isTrue (by rw [h])
    | isFalse h => isFalse (fun hh => by cases hh; exact h rfl)

/-- Decidable equality for lists of `Val`. -/
def Val.decEqList : (a b : List Val) → Decidable (a = b)
  | [], [] => isTrue rfl
  | [], _ :: _ => isFalse nofun
  | _ :: _, [] => isFalse nofun
  | x :: xs, y :: ys =>
    match Val.decEq x y, Val.decEqList xs ys with
    | isTrue h1, isTrue h2 => isTrue (by rw [h1, h2])
    | isFalse h1, _ => isFalse (fun h => by injection h with ha hb; exact h1 ha)
    | _, isFalse h2 => isFalse (fun h => by injection h with ha hb; exact h2 hb)

/-- Decidable equality for `Val` dictionaries. -/
def Val.decEqDict : (a b : List (String × Val)) → Decidable (a = b)
  | [], [] => isTrue rfl
  | [], _ :: _ => isFalse nofun
  | _ :: _, [] => isFalse nofun
  | (k, v) :: xs, (k', v') :: ys =>
    match String.decEq k k', Val.decEq v v', Val.decEqDict xs ys with
    | isTrue h0, isTrue h1, isTrue h2 => isTrue (by rw [h0, h1, h2])
    | isFalse h0, _, _ =>
      isFalse (fun h => by injection h with ha hb; exact h0 (congrArg Prod.fst ha))
    | _, isFalse h1, _ =>
      isFalse (fun h => by injection h with ha hb; exact h1 (congrArg Prod.snd ha))
    | _, _, isFalse h2 => isFalse (fun h => by injection h with ha hb; exact h2 hb)

end

instance : DecidableEq Val := Val.decEq

/-- Python truthiness for the values we model: `None` is falsy, `False`
is falsy, `0` is falsy, the empty string / list / dict are falsy,
everything else is truthy. -/
def pyTruthy : Val → Bool
  | .vnull => false
  | .vbool b => b
  | .vint n => n != 0
  | .vstr s => s != ""
  | .vlist xs => !xs.isEmpty
  | .vdict m => !m.isEmpty

/-- Python `dict.get(key)`: value of the first matching key, else `None`.
(Dictionaries we model have distinct keys, so "first" is unambiguous.) -/
def pyGet (m : List (String × Val)) (k : String) : Val :=
  match m.find? (fun p => p.1 == k) with
  | some p => p.2
  | none => .vnull

/-- Python `key in dict`. -/
def pyHasKey (m : List (String × Val)) (k : String) : Bool :=
  (m.find? (fun p => p.1 == k)).isSome

/-- Python `d[key] = v` on an insertion-ordered dict: updates the value in
place if the key exists, otherwise appends the binding at the end. -/
def pyDictSet (m : List (String × Val)) (k : String) (v : Val) : List (String × Val) :=
  match m with
  | [] => [(k, v)]
  | (k', v') :: rest =>
    if k' == k then (k', v) :: rest else (k', v') :: pyDictSet rest k v

/-- Python `d.update(d')` (apply `pyDictSet` for each binding of `d'` in
order). -/
def pyDictUpdate (m m' : List (String × Val)) : List (String × Val) :=
  m'.foldl (fun acc p => pyDictSet acc p.1 p.2) m

/-- Python `\s` whitespace (the ASCII part; template expressions in
playbooks are ASCII). -/
def isPySpace (c : Char) : Bool :=
  c = ' ' || c = '\t' || c = '\n' || c = '\r' || c = '\x0b' || c = '\x0c'

/-- Python `str.strip()` on both ends. -/
def pyStrip (s : String) : String :=
  String.mk (((s.data.dropWhile isPySpace).reverse.dropWhile isPySpace).reverse)

/-- `os.path.basename` for POSIX paths: everything after the last `/`. -/
def pyBasename (s : String) : String :=
  String.mk ((s.data.reverse.takeWhile (· ≠ '/')).reverse)

/-- `os.path.dirname` for POSIX paths: the prefix up to the last `/`,
with trailing slashes stripped unless the prefix consists only of
slashes. -/
def pyDirname (s : String) : String :=
  let cs := s.data
  if cs.contains '/' then
    let head := (cs.reverse.dropWhile (· ≠ '/')).reverse
    if head.all (· == '/') then String.mk head
    else String.mk ((head.reverse.dropWhile (· == '/')).reverse)
  else ""

/-- Helper for `pyReplace`: replace every non-overlapping occurrence of
the (nonempty) pattern `o0 :: oRest` by `new`, scanning left to right.
The first argument is a structural character budget: every step consumes
at least one character, so a budget equal to the input length makes the
scan exact (the budget keeps the recursion structural, hence
kernel-computable). -/
def pyReplaceAuxF (o0 : Char) (oRest new : List Char) : ℕ → List Char → List Char
  | 0, cs => cs
  | _ + 1, [] => []
  | fuel + 1, c :: rest =>
    if (o0 :: oRest).isPrefixOf (c :: rest) then
      new ++ pyReplaceAuxF o0 oRest new fuel ((c :: rest).drop (oRest.length + 1))
    else c :: pyReplaceAuxF o0 oRest new fuel rest

/-- Python `str.replace(old, new)`: all non-overlapping occurrences,
left to right; an empty `old` inserts `new` at every character
boundary (CPython behaviour). -/
def pyReplace (s old new : String) : String :=
  match old.data with
  | [] => String.mk (new.data ++ s.data.foldr (fun c acc => c :: (new.data ++ acc)) [])
  | o0 :: oRest => String.mk (pyReplaceAuxF o0 oRest new.data s.data.length s.data)

/-- Python `repr` of a string: quote selection (single quotes unless the
string contains `'` but no `"`), with escaping of the delimiter,
backslash, and the common control characters.  (Other non-printable
escapes are not needed by any claim.) -/
def pyReprStr (s : String) : String :=
  let q : Char := if s.data.contains '\'' && !(s.data.contains '"') then '"' else '\''
  let esc : Char → List Char := fun c =>
    if c = '\\' then ['\\', '\\']
    else if c = q then ['\\', q]
    else if c = '\n' then ['\\', 'n']
    else if c = '\r' then ['\\', 'r']
    else if c = '\t' then ['\\', 't']
    else [c]
  String.mk (q :: (s.data.foldr (fun c acc => esc c ++ acc) [q]))

mutual

/-- Python `repr` on modelled values. -/
def pyRepr : Val → String
  | .vnull => "None"
  | .vbool b => if b then "True" else "False"
  | .vint n => toString n
  | .vstr s => pyReprStr s
  | .vlist xs => "[" ++ pyReprList xs ++ "]"
  | .vdict m => "\x7b" ++ pyReprDict m ++ "\x7d"

/-- Comma-separated `repr` of list elements. -/
def pyReprList : List Val → String
  | [] => ""
  | [x] => pyRepr x
  | x :: y :: rest => pyRepr x ++ ", " ++ pyReprList (y :: rest)

/-- Comma-separated `repr` of dict entries. -/
def pyReprDict : List (String × Val) → String
  | [] => ""
  | [(k, v)] => pyReprStr k ++ ": " ++ pyRepr v
  | (k, v) :: p :: rest => pyReprStr k ++ ": " ++ pyRepr v ++ ", " ++ pyReprDict (p :: rest)

end

/-- Python `str(...)`: the string itself for strings, `repr` otherwise
(booleans, `None`, numbers, containers). -/
def pyStr : Val → String
  | .vstr s => s
  | v => pyRepr v

/-- Python 3 `round` on an exact rational: round half to even
(banker's rounding). -/
def pyRound (q : ℚ) : ℤ :=
  if q - ⌊q⌋ < 1/2 then ⌊q⌋
  else if (1 : ℚ)/2 < q - ⌊q⌋ then ⌊q⌋ + 1
  else if ⌊q⌋ % 2 = 0 then ⌊q⌋ else ⌊q⌋ + 1

/-- ASCII digit (the `\d` class as it applies to frame numbers). -/
def isReDigit (c : Char) : Bool := '0' ≤ c && c ≤ '9'

/-- The `[a-zA-Z0-9]` class. -/
def isAlnumAscii (c : Char) : Bool :=
  ('a' ≤ c && c ≤ 'z') || ('A' ≤ c && c ≤ 'Z') || ('0' ≤ c && c ≤ '9')

/-- Match the tail `(\d+)(\.[a-zA-Z0-9]+)$` of the frame pattern against
the characters after the separator: greedy digits, then a dot, then a
nonempty all-alphanumeric extension reaching the end of the string. -/
def frameTail (tail : List Char) : Option (List Char × List Char) :=
  let digits := tail.takeWhile isReDigit
  let rest := tail.dropWhile isReDigit
  match rest with
  | '.' :: ext =>
    if digits ≠ [] && ext ≠ [] && ext.all isAlnumAscii then some (digits, ext) else none
  | _ => none

/-- Scanner for `^(.*?)[._](\d+)(\.[a-zA-Z0-9]+)$` (the VFX frame-file
pattern compiled in `engine.py` line 444 and `pathmap.py` line 110):
lazy stem (shortest first, cannot contain a newline), separator `.` or
`_`, then `frameTail`.  Returns `(stem, frameNumber, dotExtension)`
like the match groups 1-3. -/
def frameMatchAux : List Char → List Char → Option (String × String × String)
  | _, [] => none
  | stemRev, c :: rest =>
    if c = '.' || c = '_' then
      match frameTail rest with
      | some (digits, ext) =>
        some (String.mk stemRev.reverse, String.mk digits, String.mk ('.' :: ext))
      | none => frameMatchAux (c :: stemRev) rest
    else if c = '\n' then none
    else frameMatchAux (c :: stemRev) rest

/-- `re.search` of the frame pattern against a string (the pattern is
anchored on both sides, so search and fullmatch agree; the `$`-before-
final-newline corner of Python `$` is not modelled). -/
def frameMatch (s : String) : Option (String × String × String) :=
  frameMatchAux [] s.data

/-- `str.strip()` at the character-list level. -/
def pyStripChars (cs : List Char) : List Char :=
  ((cs.dropWhile isPySpace).reverse.dropWhile isPySpace).reverse

/-- A character of the `[a-zA-Z0-9_]` class. -/
def isWordChar (c : Char) : Bool := isAlnumAscii c || c = '_'

/-- Python `str.split(sep)` for a one-character separator: all segments,
empty segments preserved. -/
def splitOnChar (sep : Char) : List Char → List (List Char)
  | [] => [[]]
  | c :: rest =>
    match splitOnChar sep rest with
    | seg :: segs => if c = sep then [] :: seg :: segs else (c :: seg) :: segs
    | [] => [[]]

/-- One token produced by the `re.findall` path scanner of `resolve_expr`
(`engine.py` lines 216-218): either an identifier run or a bracketed
segment `[` inner `]`, with `inner` either a digit run or a quoted key
(possibly with mismatched quotes, which the regex admits). -/
inductive PathPart where
  | ident (s : String)
  | bracket (inner : String)
  deriving DecidableEq

/-- The raw text of a scanned token, as `re.findall` returns it. -/
def PathPart.raw : PathPart → String
  | .ident s => s
  | .bracket inner => "[" ++ inner ++ "]"

/-- The `\[\d+\]` alternative of the path scanner, attempted at a `[`:
`rest` is the text after the `[`.  Returns the token and the remaining
input. -/
def tryDigitTok (rest : List Char) : Option (PathPart × List Char) :=
  match rest.dropWhile isReDigit with
  | ']' :: r2 =>
    if rest.takeWhile isReDigit = [] then none
    else some (.bracket (String.mk (rest.takeWhile isReDigit)), r2)
  | _ => none

/-- The `\[['\"][^'\"]+['\"]\]` alternative of the path scanner,
attempted at a `[`: an opening quote, a nonempty maximal run of
non-quote characters, a closing quote (either kind), and `]`. -/
def tryQuoteTok (rest : List Char) : Option (PathPart × List Char) :=
  match rest with
  | q1 :: r2 =>
    if q1 = '\'' || q1 = '"' then
      match r2.dropWhile (fun d => !(d = '\'' || d = '"')) with
      | q2 :: ']' :: r3 =>
        if r2.takeWhile (fun d => !(d = '\'' || d = '"')) = [] then none
        else some (.bracket (String.mk (q1 :: (r2.takeWhile (fun d => !(d = '\'' || d = '"')) ++ [q2]))), r3)
      | _ => none
    else none
  | [] => none

/-- The scanner for
`re.findall(r"([a-zA-Z0-9_]+|\[\d+\]|\[['\"][^'\"]+['\"]\])", var_expr)`:
left-to-right, at each position try (1) a maximal word-character run,
(2) `[` digits `]`, (3) `[` quote, nonempty run of non-quote characters,
quote, `]` (the opening and closing quote need not match); on failure
advance one character.  The first argument is a structural character
budget (every step consumes at least one character, so a budget equal to
the input length makes the scan exact). -/
def scanPathPartsF : ℕ → List Char → List PathPart
  | 0, _ => []
  | _ + 1, [] => []
  | fuel + 1, c :: rest =>
    if isWordChar c then
      .ident (String.mk ((c :: rest).takeWhile isWordChar))
        :: scanPathPartsF fuel ((c :: rest).dropWhile isWordChar)
    else if c = '[' then
      match tryDigitTok rest with
      | some (tok, r2) => tok :: scanPathPartsF fuel r2
      | none =>
        match tryQuoteTok rest with
        | some (tok, r3) => tok :: scanPathPartsF fuel r3
        | none => scanPathPartsF fuel rest
    else
      scanPathPartsF fuel rest

/-- The path scanner at full budget. -/
def scanPathParts (cs : List Char) : List PathPart := scanPathPartsF cs.length cs

/-- The `while expr_str.startswith("(") and expr_str.endswith(")")` loop
of `resolve_expr` (strip one layer of parentheses and surrounding
whitespace, repeatedly; each iteration removes at least two characters,
so the structural budget `cs.length` makes the loop exact). -/
def stripParensLoopF : ℕ → List Char → List Char
  | 0, cs => cs
  | fuel + 1, cs =>
    match cs with
    | '(' :: rest =>
      match rest.getLast? with
      | some ')' => stripParensLoopF fuel (pyStripChars rest.dropLast)
      | _ => cs
    | _ => cs

/-- The parenthesis-stripping loop at full budget. -/
def stripParensLoop (cs : List Char) : List Char := stripParensLoopF cs.length cs

/-- A quote character (the `['\"]` class). -/
def isQuoteChar (c : Char) : Bool := c = '\'' || c = '"'

/-- Drop a literal prefix, or fail. -/
def dropLiteral (lit cs : List Char) : Option (List Char) :=
  if lit.isPrefixOf cs then some (cs.drop lit.length) else none

/-- Parse `['\"]([^'\"]*)['\"]`: an opening quote, a maximal (possibly
empty) run of non-quote characters, and a closing quote — which, as in
the regex, need not match the opening one.  Returns the body and the
remaining input. -/
def parseQuoted (cs : List Char) : Option (String × List Char) :=
  match cs with
  | q1 :: rest =>
    if isQuoteChar q1 then
      let body := rest.takeWhile (fun c => !isQuoteChar c)
      match rest.dropWhile (fun c => !isQuoteChar c) with
      | _ :: r2 => some (String.mk body, r2)
      | [] => none
    else none
  | [] => none

/-- One attempt of
`re.search(r"replace\(\s*['\"]([^'\"]*)['\"]\s*,\s*['\"]([^'\"]*)['\"]\s*\)", ...)`
at the current position. -/
def tryReplaceArgsHere (cs : List Char) : Option (String × String) := do
  let r0 ← dropLiteral "replace(".data cs
  let (a, r2) ← parseQuoted (r0.dropWhile isPySpace)
  let r4 ← match r2.dropWhile isPySpace with | ',' :: t => some t | _ => none
  let (b, r6) ← parseQuoted (r4.dropWhile isPySpace)
  match r6.dropWhile isPySpace with
  | ')' :: _ => some (a, b)
  | _ => none

/-- The `re.search` scan for the `replace(...)` filter arguments
(`engine.py` lines 250-253): leftmost position wins. -/
def findReplaceArgs : List Char → Option (String × String)
  | [] => none
  | c :: rest => tryReplaceArgsHere (c :: rest) <|> findReplaceArgs rest

/-- One attempt of `re.search(r"attribute=['\"]([^'\"]+)['\"]", ...)`
at the current position (the body must be nonempty). -/
def tryAttrArgHere (cs : List Char) : Option String := do
  let r0 ← dropLiteral "attribute=".data cs
  let (a, _) ← parseQuoted r0
  if a = "" then none else some a

/-- The `re.search` scan for the `map(attribute='...')` filter argument
(`engine.py` lines 265-267). -/
def findMapAttr : List Char → Option String
  | [] => none
  | c :: rest => tryAttrArgHere (c :: rest) <|> findMapAttr rest

/-- One filter application from the sequential filter loop of
`resolve_expr` (`engine.py` lines 247-280).  Mirrors the `elif` chain:
`replace` (string replace when the operand is a string, otherwise
no-op), `basename`, `dirname`, `map(attribute=...)` (over lists;
non-dict elements give `None` since the modelled values have no Python
attributes), `list` (identity on lists, characters of a string, keys of
a dict — and a `TypeError` on the non-iterables `None`/bool/int, which
is *not* caught anywhere in `_resolve_variable`).  Unknown filter text
falls through the chain unchanged. -/
def applyOneFilter (filterExpr : String) (v : Val) : Except PyErr Val :=
  let fe := pyStrip filterExpr
  if "replace".data.isPrefixOf fe.data then
    match findReplaceArgs fe.data with
    | some (old, new) =>
      match v with
      | .vstr s => .ok (.vstr (pyReplace s old new))
      | _ => .ok v
    | none => .ok v
  else if fe = "basename" then
    match v with
    | .vstr s => .ok (.vstr (pyBasename s))
    | _ => .ok v
  else if fe = "dirname" then
    match v with
    | .vstr s => .ok (.vstr (pyDirname s))
    | _ => .ok v
  else if "map".data.isPrefixOf fe.data then
    match findMapAttr fe.data with
    | some attr =>
      match v with
      | .vlist xs =>
        .ok (.vlist (xs.map (fun it =>
          match it with
          | .vdict m => pyGet m attr
          | _ => .vnull)))
      | _ => .ok v
    | none => .ok v
  else if fe = "list" then
    match v with
    | .vlist _ => .ok v
    | .vstr s => .ok (.vlist (s.data.map (fun c => .vstr (String.mk [c]))))
    | .vdict m => .ok (.vlist (m.map (fun p => .vstr p.1)))
    | _ => .error .typeError
  else .ok v

/-- Numeric value of a digit run (`int(inner)` on a `\d+` match). -/
def natOfDigits (cs : List Char) : ℕ :=
  cs.foldl (fun acc c => acc * 10 + (c.toNat - '0'.toNat)) 0

/-- Outcome classification for the descent loop of `resolve_expr`:
`caught` collects `KeyError` / `AttributeError` / `TypeError` /
`IndexError` (the tuple caught at `engine.py` line 239, turning into
`found = False`); `uncaughtValue` is the `ValueError` raised by
`int(inner)` on a bracket token with mismatched quotes, which is *not*
in that tuple and so propagates out of resolution. -/
inductive DescendErr where
  | caught
  | uncaughtValue
  deriving DecidableEq

/-- The descent loop `for part in path_parts[1:]` (`engine.py` lines
224-238): bracketed segments index into dicts (quoted keys), lists and
strings (integer indices); identifier segments look up dict keys, and
`getattr` on non-dict values fails (the modelled values have no Python
attributes of interest). -/
def descend : Val → List PathPart → Except DescendErr Val
  | v, [] => .ok v
  | v, p :: rest =>
    match p with
    | .ident name =>
      match v with
      | .vdict m => if pyHasKey m name then descend (pyGet m name) rest else .error .caught
      | _ => .error .caught
    | .bracket inner =>
      let ic := inner.data
      if (ic.head? = some '\'' ∧ ic.getLast? = some '\'')
          ∨ (ic.head? = some '"' ∧ ic.getLast? = some '"') then
        let key := String.mk (ic.drop 1).dropLast
        match v with
        | .vdict m => if pyHasKey m key then descend (pyGet m key) rest else .error .caught
        | _ => .error .caught
      else if ic ≠ [] ∧ ic.all isReDigit then
        let i := natOfDigits ic
        match v with
        | .vlist xs =>
          match xs.get? i with
          | some x => descend x rest
          | none => .error .caught
        | .vstr s =>
          match s.data.get? i with
          | some ch => descend (.vstr (String.mk [ch])) rest
          | none => .error .caught
        | _ => .error .caught
      else .error .uncaughtValue

/-- `resolve_expr` (`engine.py` lines 196-298): strip, remove outer
parentheses, split off `|` filters, scan the path, look the root up in
the context and descend, fall back to the whole expression text as a
context key, then apply filters left to right.  Returns `none` for
"unresolved" (Python `None`), and propagates the two uncaught
exceptions (`TypeError` from the `list` filter, `ValueError` from a
mismatched-quote bracket segment). -/
def resolveExpr (exprStr : String) (ctx : List (String × Val)) : Except PyErr (Option Val) :=
  let e1 := String.mk (stripParensLoop (pyStripChars exprStr.data))
  let parts := (splitOnChar '|' e1.data).map (fun p => pyStrip (String.mk p))
  let varExpr := if e1.data.contains '|' then pyStrip (parts.headD "") else pyStrip e1
  let filters := if e1.data.contains '|' then parts.tail else []
  let applyFilters : Val → Except PyErr (Option Val) := fun v =>
    (filters.foldlM (fun acc fe => applyOneFilter fe acc) v).map some
  match scanPathParts varExpr.data with
  | p0 :: restParts =>
    if pyHasKey ctx p0.raw then
      match descend (pyGet ctx p0.raw) restParts with
      | .ok v => applyFilters v
      | .error .caught => .ok none
      | .error .uncaughtValue => .error .valueError
    else if pyHasKey ctx varExpr then applyFilters (pyGet ctx varExpr)
    else .ok none
  | [] =>
    if pyHasKey ctx varExpr then applyFilters (pyGet ctx varExpr)
    else .ok none

/-- `re.fullmatch(r"^\s*\{\{\s*(?P<expr>[^}]+)\s*\}\}\s*$", value)`
(`engine.py` line 194): after trimming outer whitespace the string must
be `\x7b\x7b interior \x7d\x7d` with a nonempty interior containing no
closing brace.  Returns the raw interior (its surrounding whitespace is
stripped by `resolve_expr` itself). -/
def fullMatchTemplate (s : String) : Option String :=
  match pyStripChars s.data with
  | '{' :: '{' :: rest =>
    match rest.reverse with
    | '}' :: '}' :: midRev =>
      if midRev.reverse ≠ [] ∧ midRev.reverse.all (· ≠ '}') then some (String.mk midRev.reverse)
      else none
    | _ => none
  | _ => none

/-- Locate the interpolation body after an opening `\x7b\x7b`: the
characters up to the first closing brace, which must be immediately
followed by a second closing brace, with a nonempty body.  Returns the
body and the text after the `\x7d\x7d`. -/
def splitAtCloseBrace (cs : List Char) : Option (List Char × List Char) :=
  match cs.dropWhile (· ≠ '}') with
  | '}' :: '}' :: rest' =>
    if cs.takeWhile (· ≠ '}') = [] then none else some (cs.takeWhile (· ≠ '}'), rest')
  | _ => none

/-- The `re.sub(r"\{\{\s*([^}]+?)\s*\}\}", substitute, value)` scan of
`_resolve_variable` (`engine.py` lines 309-314): find each occurrence
left to right; a resolved expression is replaced by its `str(...)`
form, an unresolved one is left textually intact; exceptions raised by
`resolve_expr` propagate. -/
def interpAuxF (ctx : List (String × Val)) : ℕ → List Char → Except PyErr (List Char)
  | 0, cs => .ok cs
  | _ + 1, [] => .ok []
  | fuel + 1, c1 :: rest =>
    if c1 = '{' then
      match rest with
      | c2 :: rest2 =>
        if c2 = '{' then
          match splitAtCloseBrace rest2 with
          | some (inner, after) => do
            let r ← resolveExpr (String.mk inner) ctx
            let tail ← interpAuxF ctx fuel after
            match r with
            | some v => pure ((pyStr v).data ++ tail)
            | none => pure ('{' :: '{' :: (inner ++ '}' :: '}' :: tail))
          | none => do
            let tail ← interpAuxF ctx fuel (c2 :: rest2)
            pure (c1 :: tail)
        else do
          let tail ← interpAuxF ctx fuel (c2 :: rest2)
          pure (c1 :: tail)
      | [] => .ok [c1]
    else do
      let tail ← interpAuxF ctx fuel rest
      pure (c1 :: tail)

/-- String interpolation of all `\x7b\x7b ... \x7d\x7d` occurrences
(`interpAuxF` at full budget: every step of the scan consumes at least
one character, so a budget equal to the input length makes it exact). -/
def interpolate (s : String) (ctx : List (String × Val)) : Except PyErr String :=
  (interpAuxF ctx s.data.length s.data).map String.mk

mutual

/-- Structural traversal used by `_resolve_variable`: apply the
string-resolution behaviour `f` to every string, rebuild lists and
dicts elementwise, and leave `None` / booleans / integers unchanged.
This factors the same-depth recursion of `engine.py` lines 321-328
(list and dict elements are resolved at the *same* depth, so the depth
check, once passed, stays passed all the way down to the string
leaves). -/
def valTraverse (f : String → Except PyErr Val) : Val → Except PyErr Val
  | .vstr s => f s
  | .vlist xs => (valTraverseList f xs).map .vlist
  | .vdict m => (valTraverseDict f m).map .vdict
  | other => .ok other

/-- Elementwise traversal of a list (`engine.py` line 322). -/
def valTraverseList (f : String → Except PyErr Val) : List Val → Except PyErr (List Val)
  | [] => .ok []
  | x :: rest => do
    let y ← valTraverse f x
    let ys ← valTraverseList f rest
    pure (y :: ys)

/-- Valuewise traversal of a dict (`engine.py` lines 324-326). -/
def valTraverseDict (f : String → Except PyErr Val) :
    List (String × Val) → Except PyErr (List (String × Val))
  | [] => .ok []
  | (k, v) :: rest => do
    let w ← valTraverse f v
    let ws ← valTraverseDict f rest
    pure ((k, w) :: ws)

end

/-- The string case of `_resolve_variable` at a given remaining depth
budget (`budget = 10 - depth`; a recursive call at `depth + 1` has
budget one less, and a call that would have `depth > 10` — budget
exhausted — returns its value unchanged, which is exactly the
`if depth > 10: return value` guard of `engine.py` line 188).  A full
template match returns the raw resolved value, re-resolved when it is a
string, list or dict; otherwise interpolation is performed and, if
anything changed, the new string is re-resolved. -/
def stringResolve (ctx : List (String × Val)) : ℕ → String → Except PyErr Val
  | budget, s =>
    match fullMatchTemplate s with
    | some e =>
      match resolveExpr e ctx with
      | .error er => .error er
      | .ok (some rv) =>
        match rv with
        | .vstr _ | .vlist _ | .vdict _ =>
          match budget with
          | 0 => .ok rv
          | b + 1 => valTraverse (fun s2 => stringResolve ctx b s2) rv
        | _ => .ok rv
      | .ok none =>
        match interpolate s ctx with
        | .error er => .error er
        | .ok ns =>
          if ns ≠ s then
            match budget with
            | 0 => .ok (.vstr ns)
            | b + 1 => stringResolve ctx b ns
          else .ok (.vstr ns)
    | none =>
      match interpolate s ctx with
      | .error er => .error er
      | .ok ns =>
        if ns ≠ s then
          match budget with
          | 0 => .ok (.vstr ns)
          | b + 1 => stringResolve ctx b ns
        else .ok (.vstr ns)

/-- `CrunchizeEngine._resolve_variable` (`engine.py` lines 176-328):
recursive template substitution over strings, lists and dicts, with the
recursion depth capped at 10 (`if depth > 10: return value`).  The
source recursion is re-expressed structurally: since lists and dicts
recurse at the same depth and only string re-resolution increments
`depth`, resolution at depth `d ≤ 10` is the structural traversal
`valTraverse` applied to the string behaviour with remaining budget
`10 - d` (`stringResolve`); the redundant re-checks of `depth ≤ 10` on
same-depth recursive entries are elided. -/
def resolveVariable (v : Val) (ctx : List (String × Val)) (depth : ℕ) : Except PyErr Val :=
  if depth > 10 then .ok v
  else valTraverse (fun s => stringResolve ctx (10 - depth) s) v

/-! ## Path/item inference (`src/crunchize/tasks/base.py`) -/

/-- First key of `keys` that is present in `m` with a string value
(the phase-1/phase-2 loops of `_resolve_path_from_item`:
`if k in item and isinstance(item[k], str): return item[k]`). -/
def firstStringKey (m : List (String × Val)) (keys : List String) : Option String :=
  keys.findSome? (fun k =>
    match pyGet m k with
    | .vstr s => some s
    | _ => none)

/-- First entry of `m`, in insertion order, whose key ends with `suf` and
whose value is a string (the phase-3 suffix loop). -/
def firstSuffixString (m : List (String × Val)) (suf : String) : Option String :=
  m.findSome? (fun p =>
    match p.2 with
    | .vstr s => if suf.data.isSuffixOf p.1.data then some s else none
    | _ => none)

/-- The string values of a dict, in insertion order with multiplicity
(`[v for v in item.values() if isinstance(v, str)]`). -/
def stringValues (m : List (String × Val)) : List String :=
  m.filterMap (fun p => match p.2 with | .vstr s => some s | _ => none)

/-- `BaseTask._resolve_path_from_item` (`base.py` lines 44-92): a string
is returned directly; for a dict, phase 1 tries `src`/`path`/`item`
(inputs, `prioritize_file = true`) or `dst`/`path`/`item` (outputs),
phase 2 the legacy key `source` (inputs only), phase 3 the first key
ending in `_file` (inputs) or `_path` (outputs) with a string value,
phase 4 the unique string value; otherwise the empty string. -/
def resolvePathFromItem (item : Val) (prioritizeFile : Bool) : String :=
  match item with
  | .vstr s => s
  | .vdict m =>
    match firstStringKey m (if prioritizeFile then ["src", "path", "item"] else ["dst", "path", "item"]) with
    | some s => s
    | none =>
      match firstStringKey m (if prioritizeFile then ["source"] else []) with
      | some s => s
      | none =>
        match firstSuffixString m (if prioritizeFile then "_file" else "_path") with
        | some s => s
        | none =>
          match stringValues m with
          | [s] => s
          | _ => ""
  | _ => ""

/-- Path inference as the specification words it (spec §4.2 / claim C6):
the item itself if it is a string; otherwise, for a map, the first
string value found under the keys `src`, `path`, `item`, `source`, then
any key ending with `_file` (input direction), or `dst`, `path`, `item`,
then any key ending with `_path` (output direction); otherwise the
unique string value of the map if exactly one value is a string;
otherwise the empty string. -/
def specPathInference (item : Val) (isInput : Bool) : String :=
  match item with
  | .vstr s => s
  | .vdict m =>
    match firstStringKey m (if isInput then ["src", "path", "item", "source"] else ["dst", "path", "item"]) with
    | some s => s
    | none =>
      match firstSuffixString m (if isInput then "_file" else "_path") with
      | some s => s
      | none =>
        match stringValues m with
        | [s] => s
        | _ => ""
  | _ => ""

/-! ## The path-mapping task (`src/crunchize/tasks/pathmap/pathmap.py`) -/

/-- Python `a or b or c or ...` over a list: the first truthy value, or
the last value when none is truthy (`None` for the empty chain). -/
def pyOrChain : List Val → Val
  | [] => .vnull
  | [v] => v
  | v :: rest => if pyTruthy v then v else pyOrChain rest

/-- `PathMappingTask._resolve_source` (`pathmap.py` lines 70-83):
`input_path` when truthy, a string item directly, a dict item via
`input_key` (unhashable keys raise `TypeError`; absent or non-string
keys find nothing in a string-keyed dict) or via the chain
`item.get("dst") or item.get("src") or item.get("item")`; anything else
gives `None`. -/
def pathmapResolveSource (item inputPath inputKey : Val) : Except PyErr Val :=
  if pyTruthy inputPath then .ok inputPath
  else
    match item with
    | .vstr s => .ok (.vstr s)
    | .vdict m =>
      if pyTruthy inputKey then
        match inputKey with
        | .vstr k => .ok (pyGet m k)
        | .vlist _ => .error .typeError
        | .vdict _ => .error .typeError
        | _ => .ok .vnull
      else .ok (pyOrChain [pyGet m "dst", pyGet m "src", pyGet m "item"])
    | _ => .ok .vnull

/-- The trailing-separator heuristic of `pathmap.py` lines 55-59 and
97-101: if `search` ends with `/` or `\` and `replace` does not, append
the final character of `search` to `replace`. -/
def sepHeuristic (search repl : String) : String :=
  if (search.data.getLast? = some '/' ∨ search.data.getLast? = some '\\') ∧
      ¬(repl.data.getLast? = some '/' ∨ repl.data.getLast? = some '\\') then
    match search.data.getLast? with
    | some c => repl ++ String.mk [c]
    | none => repl
  else repl

/-- Lexicographic comparison of character lists by code point (Python
string `<`). -/
def charsLt : List Char → List Char → Bool
  | [], [] => false
  | [], _ :: _ => true
  | _ :: _, [] => false
  | c :: cs, d :: ds =>
    if c.toNat < d.toNat then true
    else if d.toNat < c.toNat then false
    else charsLt cs ds

/-- Python string `<` (code-point lexicographic). -/
def strLt (a b : String) : Bool := charsLt a.data b.data

/-- Stable insertion into a sorted list under a strict comparison
(used to model Python's `sorted`, which is stable and ascending). -/
def insertLt {α : Type} (lt : α → α → Bool) (x : α) : List α → List α
  | [] => [x]
  | y :: ys => if lt x y then x :: y :: ys else y :: insertLt lt x ys

/-- Python `sorted(l, key=...)` via stable insertion sort. -/
def sortByLt {α : Type} (lt : α → α → Bool) (l : List α) : List α :=
  l.foldl (fun acc x => insertLt lt x acc) []

/-- First-occurrence key order of a Python dict built by repeated
`d[k].append(...)` on a `defaultdict` (insertion order of keys). -/
def uniqueKeysAux {α : Type} [DecidableEq α] (seen : List α) : List α → List α
  | [] => []
  | k :: rest =>
    if k ∈ seen then uniqueKeysAux seen rest
    else k :: uniqueKeysAux (k :: seen) rest

/-- Keys of a keyed list in first-occurrence order, without duplicates. -/
def uniqueKeysInOrder {α : Type} [DecidableEq α] (l : List α) : List α :=
  uniqueKeysAux [] l

/-- The sort key used when consolidating a reduce group
(`sorted(group_items, key=lambda x: self._resolve_source(x, None, input_key) or "")`).
Items that reach this point resolved to a nonempty string during
grouping, so the fallback `""` is inert. -/
def reduceSortKey (inputKey : Val) (item : Val) : String :=
  match pathmapResolveSource item .vnull inputKey with
  | .ok (.vstr s) => s
  | _ => ""

/-- `PathMappingTask.reduce_paths` (`pathmap.py` lines 85-150): map each
item's source path (non-regex mode applies the separator heuristic
first), group by `(mapped stem, extension)` from the frame pattern —
falling back to `(mapped path, "")` — in first-occurrence order, sort
each group by source string, and return one
`\x7b files, base_path \x7d` record per group.  Items whose source is
falsy are skipped; a truthy non-string source raises (`str.replace` /
`re.sub` on a non-string). -/
def reducePaths (regexSub : String → String → String → String)
    (args : List (String × Val)) (items : List Val) : Except PyErr Val := do
  match pyGet args "search", pyGet args "replace" with
  | .vstr se, .vstr re0 =>
    let useRegex := pyTruthy (pyGet args "regex")
    let re1 := if useRegex then re0 else sepHeuristic se re0
    let inputKey := pyGet args "input_key"
    let keyed ← items.foldlM (fun acc item => do
      let p ← pathmapResolveSource item .vnull inputKey
      match p with
      | .vstr s =>
        if s = "" then pure acc
        else
          let mapped := if useRegex then regexSub se re1 s else pyReplace s se re1
          match frameMatch mapped with
          | some (stem, _, ext) => pure (acc ++ [((stem, ext), item)])
          | none => pure (acc ++ [((mapped, ""), item)])
      | v => if pyTruthy v then .error .typeError else pure acc)
      ([] : List ((String × String) × Val))
    let keys := uniqueKeysInOrder (keyed.map Prod.fst)
    pure (.vlist (keys.map (fun k =>
      let groupItems := (keyed.filter (fun p => decide (p.1 = k))).map Prod.snd
      let sorted := sortByLt (fun a b => strLt (reduceSortKey inputKey a) (reduceSortKey inputKey b)) groupItems
      .vdict [("files", .vlist sorted), ("base_path", .vstr k.1)])))
  | _, _ => .error .typeError

/-- The standard (non-reduce) mode of `PathMappingTask.run`
(`pathmap.py` lines 36-68). -/
def pathmapStandard (regexSub : String → String → String → String)
    (args : List (String × Val)) : Except PyErr Val := do
  let item := pyGet args "item"
  let inputPath := pyGet args "input_path"
  let inputKey := pyGet args "input_key"
  let src ← pathmapResolveSource item inputPath inputKey
  match src with
  | .vstr s =>
    if s = "" then pure .vnull
    else
      match pyGet args "search", pyGet args "replace" with
      | .vstr se, .vstr re0 =>
        if pyTruthy (pyGet args "regex") then
          pure (.vdict [("src", .vstr s), ("dst", .vstr (regexSub se re0 s))])
        else
          pure (.vdict [("src", .vstr s), ("dst", .vstr (pyReplace s se (sepHeuristic se re0)))])
      | _, _ => .error .typeError
  | _ => pure .vnull

/-- `PathMappingTask.run` (`pathmap.py` lines 24-68): reduce mode when a
truthy list `items` and a truthy `reduce` flag are present; otherwise
resolve the source string and return the transition record
`\x7bsrc, dst\x7d`, where `dst` applies `re.sub` in regex mode
(modelled by the parameter `regexSub`) or Python `str.replace` with the
separator heuristic.  A falsy or non-string source yields `None`.
`search` / `replace` must be strings (the task validates their
presence; non-strings raise at `endswith` / `replace`). -/
def pathmapRun (regexSub : String → String → String → String)
    (args : List (String × Val)) : Except PyErr Val := do
  let items := pyGet args "items"
  match items with
  | .vlist xs =>
    if xs ≠ [] ∧ pyTruthy (pyGet args "reduce") then
      reducePaths regexSub args xs
    else
      pathmapStandard regexSub args
  | _ => pathmapStandard regexSub args

/-! ## Sequence-aware `file_amount` filtering (`engine.py` lines 440-481) -/

/-- The grouping key of the stride filter (`engine.py` lines 453-457):
a matched frame file is keyed by
`(os.path.dirname(path), stem, extension)`; anything else forms a
singleton group keyed by `("single", path, id(item))`.  Python's
`id(item)` is modelled by the item's input position, which determines
the same grouping (equal items always share a key through the first
form, and the third component only separates non-matching entries). -/
inductive GKey where
  | seq (dir stem ext : String)
  | single (path : String) (tag : ℕ)
  deriving DecidableEq

/-- First tuple component as Python compares it (`"single"` for the
fallback keys). -/
def gkeyFstStr : GKey → String
  | .seq d _ _ => d
  | .single _ _ => "single"

/-- Second tuple component as Python compares it. -/
def gkeySndStr : GKey → String
  | .seq _ st _ => st
  | .single p _ => p

/-- Lexicographic order on grouping keys as produced by Python
`sorted(groups.keys())`.  When the first two components tie between a
`seq` key and a `single` key, CPython would raise `TypeError`
(comparing `id(item)` with a string); that corner, reachable only when
a directory is literally named `"single"` and the stem equals the
path, is ordered `single < seq` here. -/
def gkeyLt (a b : GKey) : Bool :=
  if strLt (gkeyFstStr a) (gkeyFstStr b) then true
  else if strLt (gkeyFstStr b) (gkeyFstStr a) then false
  else if strLt (gkeySndStr a) (gkeySndStr b) then true
  else if strLt (gkeySndStr b) (gkeySndStr a) then false
  else
    match a, b with
    | .seq _ _ e1, .seq _ _ e2 => strLt e1 e2
    | .single _ t1, .single _ t2 => t1 < t2
    | .single _ _, .seq _ _ _ => true
    | .seq _ _ _, .single _ _ => false

/-- The path used for grouping (`engine.py` lines 448-451): the item
itself when a string, else the chain
`item.get("src") or item.get("dst") or item.get("path") or item.get("item") or ""`
for a dict, else `""`.  A truthy non-string path raises at
`os.path.basename` (not caught in `run`); a falsy non-string path is
normalised to `""` (Python would keep the raw falsy value inside the
key, a corner that only affects ordering among singleton groups). -/
def itemFilterPath (it : Val) : Except PyErr String :=
  let pv : Val :=
    match it with
    | .vstr s => .vstr s
    | .vdict m => pyOrChain [pyGet m "src", pyGet m "dst", pyGet m "path", pyGet m "item", .vstr ""]
    | _ => .vstr ""
  match pv with
  | .vstr s => .ok s
  | v => if pyTruthy v then .error .typeError else .ok ""

/-- The grouping key of one item (`engine.py` lines 453-457). -/
def groupKeyOf (idx : ℕ) (it : Val) : Except PyErr GKey := do
  let s ← itemFilterPath it
  if s = "" then pure (.single "" idx)
  else
    match frameMatch (pyBasename s) with
    | some (stem, _, ext) => pure (.seq (pyDirname s) stem ext)
    | none => pure (.single s idx)

/-- `limit = max(min(2, seq_count), int(seq_count * self.file_amount))`
(`engine.py` line 465), in exact rational arithmetic: for `f ≥ 0`,
`int(n · f) = ⌊n · f⌋ = (n · f.num) / f.den` in natural division
(see `kLimit_eq_floor`). -/
def kLimit (f : ℚ) (n : ℕ) : ℕ :=
  max (min 2 n) ((n * f.num.toNat) / f.den)

/-- Round-half-to-even of the fraction `t / b` (`b > 0`) in natural
arithmetic; agrees with `pyRound ((t : ℚ) / b)`
(see `pyRoundNat_eq_pyRound`). -/
def pyRoundNat (t b : ℕ) : ℕ :=
  let d := t / b
  let r := t % b
  if 2 * r < b then d else if b < 2 * r then d + 1 else if d % 2 = 0 then d else d + 1

/-- `index = min(int(round(j * stride)), seq_count - 1)` with
`stride = max(1.0, (seq_count - 1) / (limit - 1))`
(`engine.py` lines 471-473), in exact rational arithmetic: when the
quotient is at most `1` the stride is `1` and the rounded index is `j`
itself; otherwise the index is the banker's rounding of
`j · (n-1) / (k-1)` (see `strideIndex_eq`). -/
def strideIndex (n k j : ℕ) : ℕ :=
  if n - 1 ≤ k - 1 then min j (n - 1)
  else min (pyRoundNat (j * (n - 1)) (k - 1)) (n - 1)

/-- The pick loop `for j in range(limit)` with its global
deduplication check `if frame_item not in filtered_items`
(`engine.py` lines 472-476). -/
def pickLoop (seqItems : List Val) (n k : ℕ) (acc : List Val) : List Val :=
  (List.range k).foldl (fun cur j =>
    let it := seqItems.getD (strideIndex n k j) .vnull
    if it ∈ cur then cur else cur ++ [it]) acc

/-- The per-group loop `for key in sorted(groups.keys())`
(`engine.py` lines 459-476): groups whose limit covers them are
extended wholesale, the others go through the stride pick loop; the
accumulator `filtered_items` is shared across groups. -/
def samplePass (f : ℚ) : List (GKey × List Val) → List Val → List Val
  | [], acc => acc
  | (_, seqItems) :: rest, acc =>
    let n := seqItems.length
    let lim := kLimit f n
    if n ≤ lim then samplePass f rest (acc ++ seqItems)
    else samplePass f rest (pickLoop seqItems n lim acc)

/-- Effectful map over `Except` (the monadic for-loops of the model),
defined directly for easy reasoning and kernel computation. -/
def exceptMapM {α β : Type} (f : α → Except PyErr β) : List α → Except PyErr (List β)
  | [] => .ok []
  | x :: rest => do
    let y ← f x
    let ys ← exceptMapM f rest
    pure (y :: ys)

/-- Grouping of the input items by sequence key (`engine.py` lines
442-457) followed by the `sorted(groups.keys())` ordering: the keyed
items in input order, the distinct keys sorted, and each group's items
in input order. -/
def groupedItems (items : List Val) : Except PyErr (List (GKey × List Val)) := do
  let keyed ← exceptMapM (fun p => do
    let k ← groupKeyOf p.1 p.2
    pure (k, p.2)) items.enum
  let keys := sortByLt gkeyLt (uniqueKeysInOrder (keyed.map Prod.fst))
  pure (keys.map (fun k => (k, (keyed.filter (fun p => decide (p.1 = k))).map Prod.snd)))

/-- The whole `file_amount` stride filter (`engine.py` lines 440-481),
applied when `self.file_amount < 1.0`. -/
def fileAmountFilter (f : ℚ) (items : List Val) : Except PyErr (List Val) := do
  let gs ← groupedItems items
  pure (samplePass f gs [])

/-- `items[::n]` (`engine.py` line 486): every `n`-th element starting
at index 0. -/
def takeEveryNthAux {α : Type} (n : ℕ) : ℕ → List α → List α
  | _, [] => []
  | 0, x :: rest => x :: takeEveryNthAux n (n - 1) rest
  | k + 1, _ :: rest => takeEveryNthAux n k rest

/-- Python slice `l[::n]` for `n ≥ 1`. -/
def takeEveryNth {α : Type} (n : ℕ) (l : List α) : List α :=
  takeEveryNthAux n 0 l

/-! ## Engine constructor: `every_nth` / `file_amount` resolution
(`engine.py` lines 58-71) -/

/-- The relevant keys of a playbook `config` block or of the global
defaults file (`self.playbook.get("config") or \x7b\x7d` and
`self.globals`): `playbook_config.get("every_nth")` yields `none` for a
missing (or null) key. -/
structure PlaybookConfig where
  every_nth : Option Int := none
  file_amount : Option ℚ := none

/-- `CrunchizeEngine.__init__` lines 58-71: resolve the effective
`every_nth` and `file_amount` from the CLI arguments, the playbook
config and the global defaults.  The local `playbook_config` is only
assigned inside the `if self.every_nth is None:` branch (line 61); the
`file_amount` branch (lines 67-71) reads it unconditionally whenever
the CLI `file_amount` equals `1.0`, raising `NameError`
(`UnboundLocalError`) when `every_nth` was supplied. -/
def engineInitFilters (cliEveryNth : Option Int) (cliFileAmount : ℚ)
    (pb gl : PlaybookConfig) : Except PyErr (Int × ℚ) :=
  let enAndPc : Int × Option PlaybookConfig :=
    match cliEveryNth with
    | some k => (k, none)
    | none =>
      let pc := pb
      match pc.every_nth with
      | some e => (e, some pc)
      | none => (gl.every_nth.getD 1, some pc)
  if cliFileAmount.num = cliFileAmount.den then
    match enAndPc.2 with
    | none => .error .nameError
    | some pc =>
      match pc.file_amount with
      | some x => .ok (enAndPc.1, x)
      | none => .ok (enAndPc.1, gl.file_amount.getD 1)
  else .ok (enAndPc.1, cliFileAmount)

/-! ## The orchestration loop `CrunchizeEngine.run`
(`engine.py` lines 372-650) -/

/-- One task definition as read from the playbook
(`engine.py` lines 381-386): `none` models a missing key. -/
structure TaskDefn where
  name : Option String := none
  type : Option String := none
  args : Val := .vdict []
  loop : Option Val := none
  input : Option String := none
  batch : Bool := false

/-- The engine state threaded through the task loop: `variables`,
`task_results` (insertion-ordered dicts), the `task_was_loop` flags and
`last_task_name`.  The live alias
`self.variables["task_results"] = self.task_results` is maintained by
re-binding the `"task_results"` entry at every registration (the Python
dict object mutates only between tasks, so the snapshots agree at every
read). -/
structure EngineState where
  vars : List (String × Val)
  task_results : List (String × Val)
  task_was_loop : List (String × Bool)
  last_task : Option String

/-- `task_was_loop.get(name, False)`. -/
def getWasLoop (st : EngineState) (name : String) : Bool :=
  match st.task_was_loop.find? (fun p => p.1 == name) with
  | some p => p.2
  | none => false

/-- `task_was_loop[name] = flag`. -/
def setWasLoop (m : List (String × Bool)) (k : String) (v : Bool) : List (String × Bool) :=
  match m with
  | [] => [(k, v)]
  | (k', v') :: rest => if k' == k then (k', v) :: rest else (k', v') :: setWasLoop rest k v

/-- The task types `_get_task_class` can load (`engine.py` lines
330-370 together with the modules present under `crunchize/tasks/`);
any other type raises `ValueError` there, which `run` logs and skips. -/
def knownTaskTypes : List String :=
  ["convert", "filein", "ffmpeg", "delete", "oiio", "pathmap", "parsepath", "inscribe", "thumbnail"]

/-- Input-set selection (`engine.py` lines 403-429): implicit linear
flow substitutes the previous task's name when neither `input` nor
`loop` is given; an `input` reference is looked up in `task_results`
(filtering only if that task did not itself iterate) and then in
`variables`; a missing reference only warns (`items_to_process` stays
`None`); otherwise a truthy `loop` is template-resolved against the
variables.  Returns `(items_to_process, should_filter)`, with Python
`None` encoded as `vnull`. -/
def selectItems (st : EngineState) (inputRef0 : Option String) (loopVal : Option Val) :
    Except PyErr (Val × Bool) :=
  let inTruthy := match inputRef0 with | some s => s ≠ "" | none => false
  let loopTruthy := match loopVal with | some lv => pyTruthy lv | none => false
  let lastTruthy := match st.last_task with | some s => s ≠ "" | none => false
  let inputRef := if !inTruthy && !loopTruthy && lastTruthy then st.last_task else inputRef0
  match inputRef with
  | some r =>
    if r ≠ "" then
      if pyHasKey st.task_results r then
        .ok (pyGet st.task_results r, !(getWasLoop st r))
      else if pyHasKey st.vars r then
        .ok (pyGet st.vars r, true)
      else .ok (.vnull, false)
    else if loopTruthy = true then do
      let items ← resolveVariable (loopVal.getD .vnull) st.vars 0
      .ok (items, true)
    else .ok (.vnull, false)
  | none =>
    if loopTruthy = true then do
      let items ← resolveVariable (loopVal.getD .vnull) st.vars 0
      .ok (items, true)
    else .ok (.vnull, false)

/-- The `every_nth` / `file_amount` filtering step (`engine.py` lines
431-489), applied when `should_filter` holds and the input set is a
truthy list.  `self.file_amount < 1.0` is expressed on the exact
rational as `num < den` (equivalent since the denominator is positive),
keeping the definition kernel-computable. -/
def applyEngineFilters (fa : ℚ) (en : Int) (itemsVal : Val) (shouldF : Bool) : Except PyErr Val :=
  match itemsVal with
  | .vlist xs =>
    if shouldF ∧ xs ≠ [] then do
      let xs1 ← if fa.num < fa.den then fileAmountFilter fa xs else pure xs
      let xs2 := if 1 < en then takeEveryNth en.toNat xs1 else xs1
      pure (.vlist xs2)
    else pure itemsVal
  | _ => pure itemsVal

/-- Per-item context construction for a fan-out (`engine.py` lines
544-560): the variables, the iteration bindings, and — for dict items —
the item's own entries for keys not already present. -/
def fanOutContext (vbls : List (String × Val)) (total : ℕ) (firstIt lastIt : Val)
    (idx : ℕ) (item : Val) : List (String × Val) :=
  let ctx := pyDictUpdate vbls
    [("item", item), ("index", .vint idx), ("total", .vint total),
     ("first_item", firstIt), ("last_item", lastIt)]
  match item with
  | .vdict m => m.foldl (fun acc p => if pyHasKey acc p.1 then acc else acc ++ [p]) ctx
  | _ => ctx

/-- Argument injection after resolution (`engine.py` lines 566-569):
add `item` (unless already present) and `_variables` to a dict of
resolved arguments. -/
def injectItemArgs (resolved : Val) (item : Val) (vbls : List (String × Val)) : Val :=
  match resolved with
  | .vdict m =>
    let m1 := if pyHasKey m "item" then m else pyDictSet m "item" item
    .vdict (pyDictSet m1 "_variables" (.vdict vbls))
  | v => v

/-- Resolution of one fan-out item's arguments (the body of the
submission loop, `engine.py` lines 543-579). -/
def fanOutResolve (vbls : List (String × Val)) (taskArgs : Val) (total : ℕ)
    (firstIt lastIt : Val) (idx : ℕ) (item : Val) : Except PyErr Val := do
  let ra ← resolveVariable taskArgs (fanOutContext vbls total firstIt lastIt idx item) 0
  pure (injectItemArgs ra item vbls)

/-- The fan-out dispatch (`engine.py` lines 535-592): arguments are
resolved in submission order (an exception during resolution aborts the
run); executions are collected in the same order, a raising item
contributing `None` (`exec` returning `none` models the exception
caught at `future.result()`). -/
def fanOutRun (exec : Val → Option Val) (resolveFor : ℕ → Val → Except PyErr Val)
    (items : List Val) : Except PyErr (List Val) := do
  let ras ← exceptMapM (fun p => resolveFor p.1 p.2) items.enum
  pure (ras.map (fun ra => (exec ra).getD .vnull))

/-- The batch dispatch (`engine.py` lines 495-528). -/
def batchExec (exec : Val → Option Val) (vbls : List (String × Val)) (taskArgs : Val)
    (xs : List Val) : Except PyErr Val := do
  let ctx := pyDictUpdate vbls
    [("items", .vlist xs), ("total", .vint xs.length),
     ("first_item", xs.headD .vnull), ("last_item", xs.getLastD .vnull)]
  let ra ← resolveVariable taskArgs ctx 0
  let ra2 :=
    match ra with
    | .vdict m => Val.vdict (pyDictSet (pyDictSet m "items" (.vlist xs)) "_variables" (.vdict vbls))
    | v => v
  pure ((exec ra2).getD .vnull)

/-- The single-execution dispatch (`engine.py` lines 594-634). -/
def singleExec (exec : Val → Option Val) (vbls : List (String × Val)) (taskArgs : Val)
    (itemsVal : Val) : Except PyErr Val := do
  let ctx :=
    if itemsVal ≠ .vnull then
      let ctx0 := pyDictUpdate vbls
        [("item", itemsVal), ("index", .vint 0), ("total", .vint 1),
         ("first_item", itemsVal), ("last_item", itemsVal)]
      match itemsVal with
      | .vdict m => m.foldl (fun acc p => if pyHasKey acc p.1 then acc else acc ++ [p]) ctx0
      | _ => ctx0
    else vbls
  let ra ← resolveVariable taskArgs ctx 0
  let ra2 :=
    match ra with
    | .vdict m =>
      let m1 := if itemsVal ≠ .vnull ∧ ¬ pyHasKey m "item" then pyDictSet m "item" itemsVal else m
      Val.vdict (pyDictSet m1 "_variables" (.vdict vbls))
    | v => v
  pure ((exec ra2).getD .vnull)

/-- One iteration of the task loop (`engine.py` lines 380-647):
compute the effective name, skip tasks with a falsy or unloadable type
*without registering anything*, select and filter the input set,
dispatch (fan-out / batch / single), then register the output under the
task name in `task_results` and `variables`, record `task_was_loop`,
and advance `last_task_name`.  `runTask ty args = none` models a task
execution that raises. -/
def runOneTask (runTask : String → Val → Option Val) (fa : ℚ) (en : Int)
    (i : ℕ) (st : EngineState) (td : TaskDefn) : Except PyErr EngineState :=
  let name := td.name.getD ("Task " ++ toString i)
  match td.type with
  | none => .ok st
  | some ty =>
    if ty = "" then .ok st
    else if ty ∉ knownTaskTypes then .ok st
    else do
      let sel ← selectItems st td.input td.loop
      let itemsVal ← applyEngineFilters fa en sel.1 sel.2
      let output ←
        match itemsVal with
        | .vlist xs =>
          if xs ≠ [] then
            if td.batch then batchExec (runTask ty) st.vars td.args xs
            else
              (fanOutRun (runTask ty)
                (fanOutResolve st.vars td.args xs.length (xs.headD .vnull) (xs.getLastD .vnull))
                xs).map .vlist
          else singleExec (runTask ty) st.vars td.args itemsVal
        | _ => singleExec (runTask ty) st.vars td.args itemsVal
      let isList := match itemsVal with | .vlist _ => true | _ => false
      let newResults := pyDictSet st.task_results name output
      pure { vars := pyDictSet (pyDictSet st.vars name output) "task_results" (.vdict newResults),
             task_results := newResults,
             task_was_loop := setWasLoop st.task_was_loop name isList,
             last_task := some name }

/-- The whole task loop of `CrunchizeEngine.run` over the playbook's
task list, starting from resolved variables (the engine constructor
also binds `variables["task_results"]` to the live result dict). -/
def runPlaybookTasks (runTask : String → Val → Option Val) (fa : ℚ) (en : Int)
    (initVars : List (String × Val)) (tds : List TaskDefn) : Except PyErr EngineState :=
  tds.enum.foldlM (fun st p => runOneTask runTask fa en p.1 st p.2)
    { vars := pyDictSet initVars "task_results" (.vdict []),
      task_results := [], task_was_loop := [], last_task := none }

/-! ## Derived shape and sampling views used by the claim statements -/

/-- A concrete per-item execution used by witnesses: fails exactly on
the string item `"x"`. -/
def witnessExec : Val → Option Val := fun v =>
  match v with
  | .vstr "x" => none
  | v2 => some v2

/-- Shape test: is the value a Python `str`? -/
def Val.isStr : Val → Bool
  | .vstr _ => true
  | _ => false

/-- Shape test: is the value a Python `list`? -/
def Val.isList : Val → Bool
  | .vlist _ => true
  | _ => false

/-- Shape test: is the value iterable in the sense of `list(...)`
(`str`, `list` or `dict`)? -/
def Val.isIterable : Val → Bool
  | .vstr _ | .vlist _ | .vdict _ => true
  | _ => false

/-- The sample one group contributes on its own (`samplePass` with an
empty accumulator, restricted to a single group): all of the group when
the limit covers it, otherwise the stride picks. -/
def perShotSample (f : ℚ) (seqItems : List Val) : List Val :=
  if seqItems.length ≤ kLimit f seqItems.length then seqItems
  else pickLoop seqItems seqItems.length (kLimit f seqItems.length) []

/-- The effective display name of the `i`-th task
(`task.get("name", f"Task \x7bi\x7d")`, `engine.py` line 383). -/
def taskEffName (i : ℕ) (td : TaskDefn) : String :=
  td.name.getD ("Task " ++ toString i)

/-- Whether the task's `type` loads a task class (`engine.py` lines
388-401): present, nonempty and known to `_get_task_class`.  A task
failing this test is `continue`d without registering anything. -/
def taskTypeLoads (td : TaskDefn) : Bool :=
  match td.type with
  | none => false
  | some ty => ty ≠ "" && decide (ty ∈ knownTaskTypes)

/-! ## Properties: supporting lemmas and the claim theorems -/

theorem pyRound_intCast (n : ℤ) : pyRound (n : ℚ) = n := by
  unfold pyRound
  simp

theorem pyRound_le (q : ℚ) : (pyRound q : ℚ) ≤ q + 1/2 := by
  have h1 : ((⌊q⌋ : ℤ) : ℚ) ≤ q := Int.floor_le q
  unfold pyRound
  split_ifs <;> push_cast <;> linarith

theorem le_pyRound (q : ℚ) : q - 1/2 ≤ (pyRound q : ℚ) := by
  have h1 : ((⌊q⌋ : ℤ) : ℚ) ≤ q := Int.floor_le q
  have h2 : q < (⌊q⌋ : ℚ) + 1 := Int.lt_floor_add_one q
  unfold pyRound
  split_ifs <;> push_cast <;> linarith

theorem splitAtCloseBrace_length {cs inner rest' : List Char}
    (h : splitAtCloseBrace cs = some (inner, rest')) : rest'.length + 2 ≤ cs.length := by
  unfold splitAtCloseBrace at h
  have hle : (cs.dropWhile (· ≠ '}')).length ≤ cs.length :=
    (List.dropWhile_suffix _).sublist.length_le
  split at h
  · rename_i heq
    split at h
    · exact absurd h nofun
    · injection h with h'
      injection h' with h1 h2
      subst h2
      rw [heq] at hle
      simpa using hle
  · exact absurd h nofun

/-- **C9.**  Template resolution is bounded at recursion depth 10: the
resolver is a total function (all definitions above are structurally
recursive, so resolution terminates on every input), and any entry at a
depth beyond the limit returns the still-unresolved value unchanged
(`if depth > 10: return value`, `engine.py` line 188; the accompanying
warning is logging only). -/
theorem resolveVariable_depth_capped (v : Val) (ctx : List (String × Val)) (d : ℕ)
    (h : 10 < d) : resolveVariable v ctx d = .ok v := by
  unfold resolveVariable
  simp [h]

theorem resolveVariable_depth_capped_witness :
    10 < 11 ∧ resolveVariable (.vstr "\x7b\x7ba\x7d\x7d") [("a", .vint 1)] 11
      = .ok (.vstr "\x7b\x7ba\x7d\x7d") :=
  ⟨by norm_num, resolveVariable_depth_capped _ _ 11 (by norm_num)⟩

/-- **C10.**  In `CrunchizeEngine.__init__` (lines 58-71), the local
`playbook_config` is assigned only on the `every_nth is None` path; so
(1) constructing the engine with `every_nth` supplied and
`file_amount = 1.0` raises an unhandled `NameError` before any task
runs; (2) with `file_amount ≠ 1.0` initialization succeeds and the CLI
value wins; (3) config precedence for `file_amount`
(playbook over globals over the default `1.0`) is realized only when
`every_nth` is left unset. -/
theorem engineInit_nameError :
    (∀ (k : Int) (pb gl : PlaybookConfig),
      engineInitFilters (some k) 1 pb gl = .error .nameError)
    ∧ (∀ (en : Option Int) (fa : ℚ) (pb gl : PlaybookConfig), fa ≠ 1 →
        ∃ en2, engineInitFilters en fa pb gl = .ok (en2, fa))
    ∧ (∀ (pb gl : PlaybookConfig),
        ∃ en2, engineInitFilters none 1 pb gl
          = .ok (en2, (pb.file_amount.getD (gl.file_amount.getD 1)))) := by
  refine ⟨fun k pb gl => ?_, fun en fa pb gl hfa => ?_, fun pb gl => ?_⟩
  · unfold engineInitFilters
    norm_num
  · have hne : ¬ fa.num = fa.den := by
      intro h
      apply hfa
      have hden : (fa.den : ℤ) ≠ 0 := by
        exact_mod_cast fa.den_nz
      rw [← Rat.num_div_den fa, h]
      field_simp
    unfold engineInitFilters
    rw [if_neg hne]
    cases en <;> exact ⟨_, rfl⟩
  · unfold engineInitFilters
    norm_num
    cases hen : pb.every_nth <;> cases hpb : pb.file_amount <;> cases hgl : gl.file_amount <;>
      simp [hen, hpb, hgl]

theorem engineInit_nameError_witness :
    engineInitFilters (some 2) 1 {} {} = .error .nameError ∧
    ((mkRat 1 2 : ℚ) ≠ 1 ∧ ∃ en2, engineInitFilters (some 2) (mkRat 1 2) {} {} = .ok (en2, mkRat 1 2)) :=
  ⟨engineInit_nameError.1 2 {} {},
   by norm_num [Rat.mkRat_eq_div],
   engineInit_nameError.2.1 (some 2) (mkRat 1 2) {} {} (by norm_num [Rat.mkRat_eq_div])⟩

/-- `exceptMapM` succeeds with a result of the same length whose
entries are the elementwise successes. -/
theorem exceptMapM_ok_spec {α β : Type} (f : α → Except PyErr β) :
    ∀ (xs : List α) (ys : List β), exceptMapM f xs = .ok ys →
      ys.length = xs.length ∧
        ∀ i (h1 : i < xs.length) (h2 : i < ys.length), f xs[i] = .ok ys[i] := by
  intro xs
  induction xs with
  | nil =>
    intro ys h
    simp [exceptMapM] at h
    subst h
    exact ⟨rfl, fun i h1 _ => absurd h1 (by simp)⟩
  | cons x rest ih =>
    intro ys h
    rw [exceptMapM] at h
    cases hfx : f x with
    | error e => simp [hfx, bind, Except.bind] at h
    | ok y =>
      cases hrest : exceptMapM f rest with
      | error e => simp [hfx, hrest, bind, Except.bind, pure, Except.pure] at h
      | ok ys2 =>
        simp [hfx, hrest, bind, Except.bind, pure, Except.pure] at h
        subst h
        obtain ⟨hl, helem⟩ := ih ys2 hrest
        refine ⟨by simp [hl], fun i h1 h2 => ?_⟩
        cases i with
        | zero => simpa using hfx
        | succ j =>
          simp only [List.getElem_cons_succ]
          exact helem j (by simpa using h1) (by simpa using h2)

/-- **C2.**  For a non-batch task fanned out over an input list, the
collection loop (`engine.py` lines 581-592) records one entry per item
in submission order: the entry for item `i` is the task's output on the
arguments resolved for that item, a raising execution contributes
`None` in that slot (`exec` returning `none`), other entries are
determined only by their own outcomes, and the task is never aborted by
an item failure (executions with any other per-item outcomes still
collect a full result list). -/
theorem fanOutRun_ordering
    (exec : Val → Option Val) (resolveFor : ℕ → Val → Except PyErr Val)
    (items out : List Val) (h : fanOutRun exec resolveFor items = .ok out) :
    out.length = items.length
    ∧ (∀ i (h1 : i < items.length) (h2 : i < out.length),
        ∃ ra, resolveFor i items[i] = .ok ra ∧ out[i] = (exec ra).getD .vnull)
    ∧ (∀ exec2 : Val → Option Val, ∃ out2,
        fanOutRun exec2 resolveFor items = .ok out2
        ∧ out2.length = items.length
        ∧ ∀ i (h1 : i < items.length) (h2 : i < out.length) (h3 : i < out2.length),
            ∀ ra, resolveFor i items[i] = .ok ra → exec2 ra = exec ra →
              out2[i] = out[i]) := by
  unfold fanOutRun at h
  cases hras : exceptMapM (fun p => resolveFor p.1 p.2) items.enum with
  | error e => simp [hras, bind, Except.bind] at h
  | ok ras =>
    simp only [hras, bind, Except.bind, pure, Except.pure] at h
    injection h with h
    subst h
    obtain ⟨hl, helem⟩ := exceptMapM_ok_spec _ _ _ hras
    refine ⟨by simp [hl], fun i h1 h2 => ?_, fun exec2 => ?_⟩
    · have hi : i < ras.length := by simp [hl, h1]
      have hfe := helem i (by simpa using h1) hi
      refine ⟨ras[i], ?_, ?_⟩
      · have := List.getElem_enum items i (by simpa using h1)
        rw [this] at hfe
        exact hfe
      · simp
    · refine ⟨ras.map (fun ra => (exec2 ra).getD .vnull), ?_, by simp [hl], ?_⟩
      · unfold fanOutRun
        simp [hras, bind, Except.bind, pure, Except.pure]
      · intro i h1 h2 h3 ra hra hagree
        have hi : i < ras.length := by simp [hl, h1]
        have hfe := helem i (by simpa using h1) hi
        have := List.getElem_enum items i (by simpa using h1)
        rw [this] at hfe
        rw [hra] at hfe
        injection hfe with hfe
        simp [← hfe, hagree]

theorem fanOutRun_ordering_witness :
    fanOutRun witnessExec (fun _ v => .ok v) [.vstr "w", .vstr "x"] = .ok [.vstr "w", .vnull]
    ∧ [Val.vstr "w", Val.vnull].length = [Val.vstr "w", Val.vstr "x"].length :=
  ⟨rfl, (fanOutRun_ordering witnessExec (fun _ v => .ok v)
    [.vstr "w", .vstr "x"] [.vstr "w", .vnull] rfl).1⟩

/-- `firstStringKey` over concatenated key lists tries the first list
first. -/
theorem firstStringKey_append (m : List (String × Val)) (ks1 ks2 : List String) :
    firstStringKey m (ks1 ++ ks2)
      = match firstStringKey m ks1 with
        | some s => some s
        | none => firstStringKey m ks2 := by
  induction ks1 with
  | nil => simp [firstStringKey]
  | cons k ks ih =>
    simp only [firstStringKey, List.cons_append, List.findSome?_cons] at *
    cases pyGet m k <;> simp_all

/-- **C6.**  `BaseTask._resolve_path_from_item` realizes exactly the
documented priority: the item itself when a string; for a map, the
first string value under `src`, `path`, `item`, `source`, then any key
ending in `_file` (input direction), or `dst`, `path`, `item`, then any
key ending in `_path` (output direction); then the unique string value
if exactly one value is a string; otherwise the empty string.  (The
code's separate "legacy" phase for `source` merges into the single key
list of the specification.) -/
theorem resolvePathFromItem_matches_spec (item : Val) (pf : Bool) :
    resolvePathFromItem item pf = specPathInference item pf := by
  cases item with
  | vdict m =>
    cases pf
    · simp [resolvePathFromItem, specPathInference, firstStringKey]
    · simp only [resolvePathFromItem, specPathInference, if_true]
      rw [show ["src", "path", "item", "source"] = ["src", "path", "item"] ++ ["source"] from rfl,
        firstStringKey_append]
      rcases firstStringKey m ["src", "path", "item"] with _ | s <;> rfl
  | vnull => rfl
  | vbool b => rfl
  | vint n => rfl
  | vstr s => rfl
  | vlist xs => rfl

/-- **C5.**  Every record produced by the path-mapping task in standard
(non-reduce) mode is a transition `\x7bsrc, dst\x7d` whose `dst` is the
resolved source with the substitution applied: `re.sub` (abstracted as
`rs`) when `regex` is truthy, otherwise Python `str.replace` after the
trailing-separator heuristic `sepHeuristic` (append the final `/` or
`\` of `search` to `replace` when only `search` ends with one). -/
theorem pathmapStandard_record (rs : String → String → String → String)
    (args : List (String × Val)) (r : List (String × Val))
    (h : pathmapStandard rs args = .ok (.vdict r)) :
    ∃ s se re0,
      pathmapResolveSource (pyGet args "item") (pyGet args "input_path") (pyGet args "input_key")
          = .ok (.vstr s)
      ∧ s ≠ ""
      ∧ pyGet args "search" = .vstr se
      ∧ pyGet args "replace" = .vstr re0
      ∧ r = [("src", .vstr s),
             ("dst", .vstr (if pyTruthy (pyGet args "regex") then rs se re0 s
                            else pyReplace s se (sepHeuristic se re0)))] := by
  unfold pathmapStandard at h
  simp only [bind, Except.bind] at h
  split at h
  · exact absurd h (by simp)
  · rename_i src hsrc
    split at h
    · rename_i s
      split at h
      · exact absurd h (by simp [pure, Except.pure])
      · rename_i hs
        split at h
        · rename_i se re0 hse hre
          split at h
          · rename_i hreg
            simp only [pure, Except.pure] at h
            injection h with h2
            injection h2 with h3
            exact ⟨s, se, re0, hsrc, hs, hse, hre, by rw [← h3]; simp [hreg]⟩
          · rename_i hreg
            simp only [pure, Except.pure] at h
            injection h with h2
            injection h2 with h3
            exact ⟨s, se, re0, hsrc, hs, hse, hre, by rw [← h3]; simp [hreg]⟩
        · exact absurd h (by simp)
    · exact absurd h (by simp [pure, Except.pure])

theorem pathmapStandard_record_witness :
    pathmapStandard (fun _ _ s => s)
      [("item", .vstr "/in/shot.1001.exr"), ("search", .vstr "/in"), ("replace", .vstr "/out")]
      = .ok (.vdict [("src", .vstr "/in/shot.1001.exr"), ("dst", .vstr "/out/shot.1001.exr")])
    ∧ ∃ s se re0,
      pathmapResolveSource
          (pyGet [("item", Val.vstr "/in/shot.1001.exr"), ("search", .vstr "/in"), ("replace", .vstr "/out")] "item")
          (pyGet [("item", Val.vstr "/in/shot.1001.exr"), ("search", .vstr "/in"), ("replace", .vstr "/out")] "input_path")
          (pyGet [("item", Val.vstr "/in/shot.1001.exr"), ("search", .vstr "/in"), ("replace", .vstr "/out")] "input_key")
          = .ok (.vstr s)
      ∧ s ≠ ""
      ∧ pyGet [("item", Val.vstr "/in/shot.1001.exr"), ("search", .vstr "/in"), ("replace", .vstr "/out")] "search" = .vstr se
      ∧ pyGet [("item", Val.vstr "/in/shot.1001.exr"), ("search", .vstr "/in"), ("replace", .vstr "/out")] "replace" = .vstr re0
      ∧ [("src", Val.vstr "/in/shot.1001.exr"), ("dst", Val.vstr "/out/shot.1001.exr")]
          = [("src", .vstr s),
             ("dst", .vstr (if pyTruthy (pyGet [("item", Val.vstr "/in/shot.1001.exr"), ("search", .vstr "/in"), ("replace", .vstr "/out")] "regex")
                            then (fun _ _ s2 => s2) se re0 s
                            else pyReplace s se (sepHeuristic se re0)))] :=
  ⟨rfl, pathmapStandard_record (fun _ _ s => s) _ _ rfl⟩

/-- Whitespace is never an opening brace. -/
theorem isPySpace_ne_brace {c : Char} (h : isPySpace c = true) : ¬ c = '{' := by
  intro he
  subst he
  exact absurd h (by decide)

/-- `pyStripChars` splits its input into whitespace margins around the
stripped core. -/
theorem pyStripChars_decomp (cs : List Char) :
    ∃ w1 w2, cs = w1 ++ pyStripChars cs ++ w2
      ∧ (∀ c ∈ w1, isPySpace c) ∧ (∀ c ∈ w2, isPySpace c) := by
  refine ⟨cs.takeWhile isPySpace,
    ((cs.dropWhile isPySpace).reverse.takeWhile isPySpace).reverse, ?_, ?_, ?_⟩
  · unfold pyStripChars
    conv_lhs => rw [← List.takeWhile_append_dropWhile isPySpace cs]
    rw [List.append_assoc]
    congr 1
    have h1 : ((cs.dropWhile isPySpace).reverse.takeWhile isPySpace
        ++ (cs.dropWhile isPySpace).reverse.dropWhile isPySpace)
        = (cs.dropWhile isPySpace).reverse :=
      List.takeWhile_append_dropWhile _ _
    calc cs.dropWhile isPySpace
        = (cs.dropWhile isPySpace).reverse.reverse := (List.reverse_reverse _).symm
      _ = ((cs.dropWhile isPySpace).reverse.takeWhile isPySpace
            ++ (cs.dropWhile isPySpace).reverse.dropWhile isPySpace).reverse := by rw [h1]
      _ = _ := by rw [List.reverse_append]
  · intro c hc
    exact List.mem_takeWhile_imp hc
  · intro c hc
    rw [List.mem_reverse] at hc
    exact List.mem_takeWhile_imp hc

/-- Structure of a successful `fullMatchTemplate`: the stripped string
is `\x7b\x7b` interior `\x7d\x7d` with a nonempty interior free of
closing braces. -/
theorem fullMatchTemplate_spec (s : String) (e : String) (h : fullMatchTemplate s = some e) :
    pyStripChars s.data = '{' :: '{' :: (e.data ++ ['}', '}'])
    ∧ e.data ≠ [] ∧ ∀ c ∈ e.data, ¬ c = '}' := by
  unfold fullMatchTemplate at h
  split at h
  · rename_i rest heq
    split at h
    · rename_i midRev heq2
      split at h
      · rename_i hcond
        injection h with h
        have hdata : e.data = midRev.reverse := by rw [← h]
        have hrest : rest = midRev.reverse ++ ['}', '}'] := by
          have : rest = rest.reverse.reverse := (List.reverse_reverse _).symm
          rw [this, heq2]
          simp
        refine ⟨?_, ?_, ?_⟩
        · rw [heq, hrest, hdata]
        · rw [hdata]; exact hcond.1
        · intro c hc
          have := hcond.2
          rw [List.all_eq_true] at this
          have := this c (by rw [← hdata]; exact hc)
          simpa using this
      · exact absurd h nofun
    · exact absurd h nofun
  · exact absurd h nofun

/-- `takeWhile`/`dropWhile` across a satisfying prefix followed by a
failing element. -/
theorem takeWhile_dropWhile_split (p : Char → Bool) :
    ∀ (I : List Char) (y : Char) (rest : List Char), (∀ c ∈ I, p c) → p y = false →
      (I ++ y :: rest).takeWhile p = I ∧ (I ++ y :: rest).dropWhile p = y :: rest := by
  intro I
  induction I with
  | nil =>
    intro y rest _ hy
    simp [List.takeWhile_cons, List.dropWhile_cons, hy]
  | cons c I2 ih =>
    intro y rest hI hy
    have hc : p c = true := hI c (by simp)
    have := ih y rest (fun d hd => hI d (by simp [hd])) hy
    simp [List.takeWhile_cons, List.dropWhile_cons, hc, this.1, this.2]

/-- Computation of `splitAtCloseBrace` on an explicit body. -/
theorem splitAtCloseBrace_of (I w : List Char) (hne : I ≠ []) (hnb : ∀ c ∈ I, ¬ c = '}') :
    splitAtCloseBrace (I ++ '}' :: '}' :: w) = some (I, w) := by
  have hsplit := takeWhile_dropWhile_split (fun c => decide (c ≠ '}')) I '}' ('}' :: w)
    (fun c hc => by simpa using hnb c hc) (by simp)
  unfold splitAtCloseBrace
  rw [hsplit.1, hsplit.2]
  simp [hne]

/-- The interpolation scan leaves a text with no opening brace
unchanged (given enough fuel). -/
theorem interpAuxF_no_open (ctx : List (String × Val)) :
    ∀ (cs : List Char) (fuel : ℕ), cs.length ≤ fuel → (∀ c ∈ cs, ¬ c = '{') →
      interpAuxF ctx fuel cs = .ok cs := by
  intro cs
  induction cs with
  | nil =>
    intro fuel _ _
    cases fuel <;> rfl
  | cons c rest ih =>
    intro fuel hlen hnb
    cases fuel with
    | zero => exact absurd hlen (by simp)
    | succ f =>
      have hc : ¬ c = '{' := hnb c (by simp)
      have hlen2 : rest.length ≤ f := Nat.le_of_succ_le_succ (by simpa using hlen)
      have hrest := ih f hlen2 (fun d hd => hnb d (by simp [hd]))
      rw [interpAuxF.eq_def]
      simp [hc, hrest, bind, Except.bind, pure, Except.pure]

/-- The interpolation scan over a brace-free prefix prepends it to the
scan of the remainder. -/
theorem interpAuxF_prefix (ctx : List (String × Val)) :
    ∀ (w rest : List Char) (fuel : ℕ) (out : List Char), (∀ c ∈ w, ¬ c = '{') →
      interpAuxF ctx fuel rest = .ok out →
      interpAuxF ctx (w.length + fuel) (w ++ rest) = .ok (w ++ out) := by
  intro w
  induction w with
  | nil =>
    intro rest fuel out _ h
    simpa using h
  | cons c w2 ih =>
    intro rest fuel out hnb h
    have hc : ¬ c = '{' := hnb c (by simp)
    have htail := ih rest fuel out (fun d hd => hnb d (by simp [hd])) h
    have hfl : (c :: w2).length + fuel = (w2.length + fuel) + 1 := by
      simp [List.length_cons]
      ring
    rw [hfl, List.cons_append, interpAuxF.eq_def]
    simp [hc, htail, bind, Except.bind, pure, Except.pure]

/-- A whole-string template whose expression does not resolve
interpolates to itself: the margins are whitespace (no opening brace),
the single `\x7b\x7b ... \x7d\x7d` occurrence is scanned, found
unresolved, and written back verbatim. -/
theorem interpolate_fullMatch_unresolved (s e : String) (ctx : List (String × Val))
    (hm : fullMatchTemplate s = some e) (hr : resolveExpr e ctx = .ok none) :
    interpolate s ctx = .ok s := by
  obtain ⟨hcore, hne, hnb⟩ := fullMatchTemplate_spec s e hm
  obtain ⟨w1, w2, hsplit, hw1, hw2⟩ := pyStripChars_decomp s.data
  rw [hcore] at hsplit
  have hw1b : ∀ c ∈ w1, ¬ c = '{' := fun c hc => isPySpace_ne_brace (hw1 c hc)
  have hw2b : ∀ c ∈ w2, ¬ c = '{' := fun c hc => isPySpace_ne_brace (hw2 c hc)
  have hs : s.data = w1 ++ ('{' :: '{' :: (e.data ++ '}' :: '}' :: w2)) := by
    rw [hsplit]
    simp
  have hr2 : resolveExpr (String.mk e.data) ctx = .ok none := hr
  have hw2scan : interpAuxF ctx (e.length + 3 + w2.length) w2 = .ok w2 :=
    interpAuxF_no_open ctx w2 _ (by omega) hw2b
  have hcorescan : interpAuxF ctx ((e.length + 3 + w2.length) + 1)
      ('{' :: '{' :: (e.data ++ '}' :: '}' :: w2))
      = .ok ('{' :: '{' :: (e.data ++ '}' :: '}' :: w2)) := by
    rw [interpAuxF]
    simp only [if_pos rfl]
    rw [splitAtCloseBrace_of e.data w2 hne hnb]
    simp [hr2, hw2scan, bind, Except.bind, pure, Except.pure]
  have hall := interpAuxF_prefix ctx w1 _ _ _ hw1b hcorescan
  have hedl : e.data.length = e.length := rfl
  have hlen : s.data.length = w1.length + ((e.length + 3 + w2.length) + 1) := by
    rw [hs]
    simp [List.length_append, List.length_cons]
    omega
  unfold interpolate
  rw [hlen, hs, hall]
  rw [← hs]
  rfl

/-- A whole-string template whose expression does not resolve is
returned as its original text by the string case of
`_resolve_variable`, at every remaining depth budget. -/
theorem stringResolve_unresolved (s e : String) (ctx : List (String × Val)) (b : ℕ)
    (hm : fullMatchTemplate s = some e) (hr : resolveExpr e ctx = .ok none) :
    stringResolve ctx b s = .ok (.vstr s) := by
  have hi := interpolate_fullMatch_unresolved s e ctx hm hr
  rw [stringResolve]
  simp [hm, hr, hi]

/-- **C4** (corrected).  The filters `replace`, `basename`, `dirname`
and `map` are indeed no-ops on operands of the wrong shape, and an
unresolved whole-string expression resolves to its original text; but
the claim's universal safety statement fails on the remaining filter:
`list` applied to a non-iterable operand raises an uncaught
`TypeError`, and the unresolved whole-string expression yields its
text, never null (see the counterexample). -/
theorem applyOneFilter_wrong_shape :
    (∀ v : Val, v.isStr = false →
        applyOneFilter "basename" v = .ok v
        ∧ applyOneFilter "dirname" v = .ok v
        ∧ ∀ fe, "replace".data.isPrefixOf (pyStrip fe).data = true →
            applyOneFilter fe v = .ok v)
    ∧ (∀ (fe : String) (v : Val), v.isList = false →
        "map".data.isPrefixOf (pyStrip fe).data = true → applyOneFilter fe v = .ok v)
    ∧ (∀ v : Val, v.isIterable = false → applyOneFilter "list" v = .error .typeError)
    ∧ (∀ (s e : String) (ctx : List (String × Val)) (d : ℕ),
        fullMatchTemplate s = some e → resolveExpr e ctx = .ok none →
        resolveVariable (.vstr s) ctx d = .ok (.vstr s)) := by
  refine ⟨fun v hv => ⟨?_, ?_, fun fe hpre => ?_⟩, fun fe v hv hpre => ?_, fun v hv => ?_,
    fun s e ctx d hm hr => ?_⟩
  · cases v <;> first | rfl | simp [Val.isStr] at hv
  · cases v <;> first | rfl | simp [Val.isStr] at hv
  · unfold applyOneFilter
    simp only [hpre, if_true]
    cases hf : findReplaceArgs (pyStrip fe).data with
    | none => rfl
    | some pr => cases v <;> first | rfl | simp [Val.isStr] at hv
  · obtain ⟨tl, hd⟩ : ∃ tl, (pyStrip fe).data = 'm' :: tl := by
      rcases hd : (pyStrip fe).data with _ | ⟨c, tl⟩
      · rw [hd] at hpre
        exact absurd hpre (by decide)
      · rw [hd] at hpre
        have hmv : ("map".data) = ['m', 'a', 'p'] := rfl
        rw [hmv] at hpre
        simp [List.isPrefixOf] at hpre
        exact ⟨tl, by rw [hpre.1]⟩
    have h1 : "replace".data.isPrefixOf (pyStrip fe).data = false := by
      rw [hd]
      have hrv : ("replace".data) = ['r', 'e', 'p', 'l', 'a', 'c', 'e'] := rfl
      rw [hrv]
      simp [List.isPrefixOf]
    have h2 : ¬ pyStrip fe = "basename" := by
      intro he
      rw [he] at hd
      have := congrArg List.head? hd
      simp at this
    have h3 : ¬ pyStrip fe = "dirname" := by
      intro he
      rw [he] at hd
      have := congrArg List.head? hd
      simp at this
    unfold applyOneFilter
    simp only [h1, Bool.false_eq_true, if_false, if_neg h2, if_neg h3, hpre, if_true]
    cases hf : findMapAttr (pyStrip fe).data with
    | none => rfl
    | some attr => cases v <;> first | rfl | simp [Val.isList] at hv
  · cases v <;> first | rfl | simp [Val.isIterable] at hv
  · unfold resolveVariable
    split
    · rfl
    · exact stringResolve_unresolved s e ctx (10 - d) hm hr

theorem applyOneFilter_wrong_shape_witness :
    applyOneFilter "basename" (.vint 7) = .ok (.vint 7)
    ∧ applyOneFilter "map(attribute=\"k\")" (.vint 7) = .ok (.vint 7)
    ∧ applyOneFilter "list" .vnull = .error .typeError
    ∧ resolveVariable (.vstr "\x7b\x7b qq \x7d\x7d") [("zz", .vint 1)] 0
        = .ok (.vstr "\x7b\x7b qq \x7d\x7d") :=
  ⟨(applyOneFilter_wrong_shape.1 (.vint 7) rfl).1,
   applyOneFilter_wrong_shape.2.1 "map(attribute=\"k\")" (.vint 7) rfl (by decide),
   applyOneFilter_wrong_shape.2.2.1 .vnull rfl,
   applyOneFilter_wrong_shape.2.2.2 "\x7b\x7b qq \x7d\x7d" " qq " [("zz", .vint 1)] 0 rfl rfl⟩

/-- **C4** counterexample.  Template resolution *can* raise: on the
whole-string template over `a | list` with `a = 5` the `list` filter
hits a non-iterable and the `TypeError` propagates (it is not in the
caught tuple of `resolve_expr`); and an unresolved whole-string
expression yields the original text, not null. -/
theorem resolveVariable_raises_counterexample :
    resolveVariable (.vstr "\x7b\x7b a | list \x7d\x7d") [("a", .vint 5)] 0 = .error .typeError
    ∧ resolveVariable (.vstr "\x7b\x7b zzz \x7d\x7d") [] 0 = .ok (.vstr "\x7b\x7b zzz \x7d\x7d") :=
  ⟨rfl, rfl⟩

/-- Elementwise traversal preserves list length when it succeeds. -/
theorem valTraverseList_length (f : String → Except PyErr Val) :
    ∀ (xs : List Val) (ys : List Val), valTraverseList f xs = .ok ys → ys.length = xs.length := by
  intro xs
  induction xs with
  | nil =>
    intro ys h
    rw [valTraverseList] at h
    injection h with h
    subst h
    rfl
  | cons x rest ih =>
    intro ys h
    rw [valTraverseList] at h
    cases hx : valTraverse f x with
    | error e => simp [hx, bind, Except.bind] at h
    | ok y =>
      cases hrest : valTraverseList f rest with
      | error e => simp [hx, hrest, bind, Except.bind] at h
      | ok ys2 =>
        simp [hx, hrest, bind, Except.bind, pure, Except.pure] at h
        subst h
        simp [ih ys2 hrest]

/-- **C3.**  A string that is exactly one `\x7b\x7b expression \x7d\x7d`
(up to surrounding whitespace) whose expression resolves returns the
raw resolved value re-resolved at the next depth — not a
stringification: a mapping stays a mapping, a sequence stays a sequence
of the same length, and an integer is returned as itself. -/
theorem resolveVariable_fullMatch (s e : String) (ctx : List (String × Val)) (d : ℕ)
    (rv : Val) (hd : d ≤ 10) (hm : fullMatchTemplate s = some e)
    (hr : resolveExpr e ctx = .ok (some rv)) :
    resolveVariable (.vstr s) ctx d = resolveVariable rv ctx (d + 1)
    ∧ (∀ m, rv = .vdict m → ∀ out, resolveVariable (.vstr s) ctx d = .ok out →
        ∃ m2, out = .vdict m2)
    ∧ (∀ xs, rv = .vlist xs → ∀ out, resolveVariable (.vstr s) ctx d = .ok out →
        ∃ ys, out = .vlist ys ∧ ys.length = xs.length)
    ∧ (∀ n : Int, rv = .vint n → resolveVariable (.vstr s) ctx d = .ok (.vint n)) := by
  have hngt : ¬ d > 10 := by omega
  have hL : resolveVariable (.vstr s) ctx d = stringResolve ctx (10 - d) s := by
    unfold resolveVariable
    rw [if_neg hngt]
    rfl
  have hmain : resolveVariable (.vstr s) ctx d = resolveVariable rv ctx (d + 1) := by
    rw [hL, stringResolve]
    simp only [hm, hr]
    cases rv with
    | vnull =>
      by_cases hdt : d = 10
      · subst hdt
        unfold resolveVariable
        rw [if_pos (by omega)]
      · have hb : 10 - d = (10 - (d + 1)) + 1 := by omega
        rw [hb]
        unfold resolveVariable
        rw [if_neg (by omega : ¬ d + 1 > 10)]
        rfl
    | vbool b2 =>
      by_cases hdt : d = 10
      · subst hdt
        unfold resolveVariable
        rw [if_pos (by omega)]
      · have hb : 10 - d = (10 - (d + 1)) + 1 := by omega
        rw [hb]
        unfold resolveVariable
        rw [if_neg (by omega : ¬ d + 1 > 10)]
        rfl
    | vint n2 =>
      by_cases hdt : d = 10
      · subst hdt
        unfold resolveVariable
        rw [if_pos (by omega)]
      · have hb : 10 - d = (10 - (d + 1)) + 1 := by omega
        rw [hb]
        unfold resolveVariable
        rw [if_neg (by omega : ¬ d + 1 > 10)]
        rfl
    | vstr s2 =>
      by_cases hdt : d = 10
      · subst hdt
        unfold resolveVariable
        rw [if_pos (by omega)]
      · have hb : 10 - d = (10 - (d + 1)) + 1 := by omega
        rw [hb]
        unfold resolveVariable
        rw [if_neg (by omega : ¬ d + 1 > 10)]
    | vlist xs =>
      by_cases hdt : d = 10
      · subst hdt
        unfold resolveVariable
        rw [if_pos (by omega)]
      · have hb : 10 - d = (10 - (d + 1)) + 1 := by omega
        rw [hb]
        unfold resolveVariable
        rw [if_neg (by omega : ¬ d + 1 > 10)]
    | vdict m =>
      by_cases hdt : d = 10
      · subst hdt
        unfold resolveVariable
        rw [if_pos (by omega)]
      · have hb : 10 - d = (10 - (d + 1)) + 1 := by omega
        rw [hb]
        unfold resolveVariable
        rw [if_neg (by omega : ¬ d + 1 > 10)]
  refine ⟨hmain, fun m hrv out hout => ?_, fun xs hrv out hout => ?_, fun n hrv => ?_⟩
  · subst hrv
    rw [hmain] at hout
    unfold resolveVariable at hout
    split at hout
    · injection hout with hout
      exact ⟨m, hout.symm⟩
    · cases h2 : valTraverseDict (fun s2 => stringResolve ctx (10 - (d + 1)) s2) m with
      | error er => rw [valTraverse, h2] at hout; exact absurd hout (by simp [Except.map])
      | ok ws =>
        rw [valTraverse, h2] at hout
        simp [Except.map] at hout
        exact ⟨ws, hout.symm⟩
  · subst hrv
    rw [hmain] at hout
    unfold resolveVariable at hout
    split at hout
    · injection hout with hout
      exact ⟨xs, hout.symm, rfl⟩
    · cases h2 : valTraverseList (fun s2 => stringResolve ctx (10 - (d + 1)) s2) xs with
      | error er => rw [valTraverse, h2] at hout; exact absurd hout (by simp [Except.map])
      | ok ys =>
        rw [valTraverse, h2] at hout
        simp [Except.map] at hout
        exact ⟨ys, hout.symm, valTraverseList_length _ xs ys h2⟩
  · subst hrv
    rw [hmain]
    unfold resolveVariable
    split <;> rfl

theorem resolveVariable_fullMatch_witness :
    resolveVariable (.vstr "\x7b\x7b a \x7d\x7d") [("a", .vdict [("k", .vstr "v")])] 0
      = resolveVariable (.vdict [("k", .vstr "v")]) [("a", .vdict [("k", .vstr "v")])] 1
    ∧ ∃ m2, (Val.vdict [("k", Val.vstr "v")]) = .vdict m2 :=
  ⟨(resolveVariable_fullMatch "\x7b\x7b a \x7d\x7d" " a " [("a", .vdict [("k", .vstr "v")])] 0
      (.vdict [("k", .vstr "v")]) (by omega) rfl rfl).1,
   (resolveVariable_fullMatch "\x7b\x7b a \x7d\x7d" " a " [("a", .vdict [("k", .vstr "v")])] 0
      (.vdict [("k", .vstr "v")]) (by omega) rfl rfl).2.1 [("k", .vstr "v")] rfl
      (.vdict [("k", .vstr "v")]) rfl⟩

/-- Inversion for a successful `Except` bind. -/
theorem exceptBind_ok {α β : Type} {m : Except PyErr α} {f : α → Except PyErr β} {b : β}
    (h : (m >>= f) = .ok b) : ∃ a, m = .ok a ∧ f a = .ok b := by
  cases m with
  | error e => exact absurd h (by simp [bind, Except.bind])
  | ok a => exact ⟨a, rfl, by simpa [bind, Except.bind] using h⟩

/-- Setting a fresh key appends it to the key sequence. -/
theorem pyDictSet_keys_append (m : List (String × Val)) (k : String) (v : Val)
    (h : ¬ k ∈ m.map Prod.fst) :
    (pyDictSet m k v).map Prod.fst = m.map Prod.fst ++ [k] := by
  induction m with
  | nil => rfl
  | cons p rest ih =>
    obtain ⟨k1, v1⟩ := p
    simp only [List.map_cons, List.mem_cons, not_or] at h
    have hne : (k1 == k) = false := by
      rw [beq_eq_false_iff_ne]
      exact fun he => h.1 he.symm
    rw [pyDictSet]
    simp [hne, ih h.2]

/-- A task whose `type` does not load is skipped without any state
change (`continue` before registration, `engine.py` lines 388-401). -/
theorem runOneTask_skip (runTask : String → Val → Option Val) (fa : ℚ) (en : Int)
    (i : ℕ) (st : EngineState) (td : TaskDefn)
    (hload : taskTypeLoads td = false) :
    runOneTask runTask fa en i st td = .ok st := by
  unfold runOneTask
  cases hty : td.type with
  | none => rfl
  | some ty =>
    have hload2 : (ty ≠ "" && decide (ty ∈ knownTaskTypes)) = false := by
      unfold taskTypeLoads at hload
      rw [hty] at hload
      exact hload
    simp only [hty]
    by_cases h0 : ty = ""
    · rw [if_pos h0]
    · have hnm : ty ∉ knownTaskTypes := by
        intro hmem
        simp [h0, hmem] at hload2
      rw [if_neg h0, if_pos hnm]

/-- A task whose `type` loads registers its output under its effective
name and records itself as the last task. -/
theorem runOneTask_registers (runTask : String → Val → Option Val) (fa : ℚ) (en : Int)
    (i : ℕ) (st : EngineState) (td : TaskDefn) (st' : EngineState)
    (hload : taskTypeLoads td = true)
    (h : runOneTask runTask fa en i st td = .ok st') :
    ∃ output,
      st'.task_results = pyDictSet st.task_results (taskEffName i td) output
      ∧ st'.last_task = some (taskEffName i td) := by
  unfold runOneTask at h
  cases hty : td.type with
  | none =>
    unfold taskTypeLoads at hload
    rw [hty] at hload
    exact absurd hload (by simp)
  | some ty =>
    have hload2 : (ty ≠ "" && decide (ty ∈ knownTaskTypes)) = true := by
      unfold taskTypeLoads at hload
      rw [hty] at hload
      exact hload
    have hne : ¬ ty = "" := by
      intro he
      rw [he] at hload2
      simp at hload2
    have hmem : ty ∈ knownTaskTypes := by
      by_contra hnm
      simp [hnm] at hload2
    simp only [hty] at h
    rw [if_neg hne, if_neg (not_not_intro hmem)] at h
    obtain ⟨sel, hsel, h⟩ := exceptBind_ok h
    obtain ⟨itemsVal, hitems, h⟩ := exceptBind_ok h
    split at h
    all_goals try split at h
    all_goals try split at h
    all_goals
      obtain ⟨output, _, h⟩ := exceptBind_ok h
    all_goals
      simp only [pure, Except.pure] at h
    all_goals
      injection h with h
    all_goals
      subst h
    all_goals
      exact ⟨output, rfl, rfl⟩

/-- Keys of `task_results` across the task fold: the starting keys
followed by the effective names of the loadable tasks, in declared
order, provided the effective names are fresh and distinct. -/
theorem runPlaybook_fold_keys (runTask : String → Val → Option Val) (fa : ℚ) (en : Int) :
    ∀ (ps : List (ℕ × TaskDefn)) (st0 st : EngineState),
      ps.foldlM (fun st p => runOneTask runTask fa en p.1 st p.2) st0 = .ok st →
      (∀ p ∈ ps, ¬ (taskEffName p.1 p.2 ∈ st0.task_results.map Prod.fst)) →
      (ps.map (fun p => taskEffName p.1 p.2)).Nodup →
      st.task_results.map Prod.fst
        = st0.task_results.map Prod.fst
          ++ (ps.filter (fun p => taskTypeLoads p.2)).map (fun p => taskEffName p.1 p.2) := by
  intro ps
  induction ps with
  | nil =>
    intro st0 st h hfresh hnd
    simp only [List.foldlM, pure, Except.pure] at h
    injection h with h
    subst h
    simp
  | cons p rest ih =>
    intro st0 st h hfresh hnd
    rw [List.foldlM] at h
    obtain ⟨st1, hstep, h⟩ := exceptBind_ok h
    rw [List.map_cons] at hnd
    have hndp := List.nodup_cons.mp hnd
    by_cases hload : taskTypeLoads p.2 = true
    · obtain ⟨output, hreg, _⟩ := runOneTask_registers runTask fa en p.1 st0 p.2 st1 hload hstep
      have hkeys1 : st1.task_results.map Prod.fst
          = st0.task_results.map Prod.fst ++ [taskEffName p.1 p.2] := by
        rw [hreg]
        exact pyDictSet_keys_append _ _ _ (hfresh p (by simp))
      have hfresh1 : ∀ q ∈ rest, ¬ (taskEffName q.1 q.2 ∈ st1.task_results.map Prod.fst) := by
        intro q hq hin
        rw [hkeys1] at hin
        rcases List.mem_append.mp hin with hin1 | hin2
        · exact hfresh q (by simp [hq]) hin1
        · have heq : taskEffName q.1 q.2 = taskEffName p.1 p.2 := by simpa using hin2
          have hmem2 : taskEffName q.1 q.2 ∈ rest.map (fun r => taskEffName r.1 r.2) :=
            List.mem_map_of_mem _ hq
          rw [heq] at hmem2
          exact hndp.1 hmem2
      have hrest := ih st1 st h hfresh1 hndp.2
      rw [hrest, hkeys1]
      simp [List.filter_cons, hload]
    · have hload2 : taskTypeLoads p.2 = false := by simpa using hload
      rw [runOneTask_skip runTask fa en p.1 st0 p.2 hload2] at hstep
      injection hstep with hstep
      subst hstep
      have hrest := ih st0 st h (fun q hq => hfresh q (by simp [hq])) hndp.2
      rw [hrest]
      simp [List.filter_cons, hload2]

/-- **C7** (corrected).  Tasks run in declared order and, provided the
effective task names are distinct, the keys of `task_results` after the
run are the effective names **of the tasks whose `type` loads**, in
declared order: a task with a missing, empty or unknown `type` is
`continue`d before registration and leaves no key at all. -/
theorem runPlaybookTasks_registered_keys (runTask : String → Val → Option Val)
    (fa : ℚ) (en : Int) (initVars : List (String × Val)) (tds : List TaskDefn)
    (st : EngineState)
    (hnd : (tds.enum.map (fun p => taskEffName p.1 p.2)).Nodup)
    (h : runPlaybookTasks runTask fa en initVars tds = .ok st) :
    st.task_results.map Prod.fst
      = (tds.enum.filter (fun p => taskTypeLoads p.2)).map (fun p => taskEffName p.1 p.2) := by
  have hmain := runPlaybook_fold_keys runTask fa en tds.enum
    { vars := pyDictSet initVars "task_results" (.vdict []),
      task_results := [], task_was_loop := [], last_task := none } st h
    (by intro q hq; simp) hnd
  simpa using hmain

theorem runPlaybookTasks_registered_keys_witness :
    ∃ st, runPlaybookTasks (fun _ _ => some .vnull) 1 1 []
        [⟨some "t1", some "pathmap", .vdict [], none, none, false⟩,
         ⟨some "t2", none, .vdict [], none, none, false⟩] = .ok st
      ∧ st.task_results.map Prod.fst = ["t1"] := by
  obtain ⟨st, hst⟩ : ∃ st, runPlaybookTasks (fun _ _ => some .vnull) 1 1 []
      [⟨some "t1", some "pathmap", .vdict [], none, none, false⟩,
       ⟨some "t2", none, .vdict [], none, none, false⟩] = .ok st := ⟨_, rfl⟩
  refine ⟨st, hst, ?_⟩
  have hk := runPlaybookTasks_registered_keys (fun _ _ => some .vnull) 1 1 []
    [⟨some "t1", some "pathmap", .vdict [], none, none, false⟩,
     ⟨some "t2", none, .vdict [], none, none, false⟩] st (by decide) hst
  rw [hk]
  rfl

/-- **C7** counterexample.  A playbook whose first task has no `type`
and whose second is a loadable `pathmap` task ends the run with
`task_results` keys `["b"]`: the skipped task registers nothing, so the
keys are **not** the declared task names `["a", "b"]`. -/
theorem runPlaybookTasks_skip_counterexample :
    (runPlaybookTasks (fun _ _ => some .vnull) 1 1 []
        [⟨some "a", none, .vdict [], none, none, false⟩,
         ⟨some "b", some "pathmap", .vdict [], none, none, false⟩]).map
      (fun st => st.task_results.map Prod.fst) = .ok ["b"]
    ∧ (["b"] : List String) ≠ ["a", "b"] :=
  ⟨rfl, by decide⟩

/-- **C8** (corrected).  The engine wraps a result in a list exactly
for fan-out dispatches: a non-batch task over a nonempty input list
registers a list with one entry per item.  Batch and single dispatches
register the task's own return value unchanged — which therefore *can*
be a list when the task returns one (the `pathmap` reduce mode does, see
the counterexample), so "is a list" does not characterise fan-out. -/
theorem runOneTask_result_shape (runTask : String → Val → Option Val) (fa : ℚ) (en : Int)
    (i : ℕ) (st : EngineState) (td : TaskDefn) (st' : EngineState)
    (hload : taskTypeLoads td = true)
    (h : runOneTask runTask fa en i st td = .ok st') :
    ∃ sel itemsVal output,
      selectItems st td.input td.loop = .ok sel
      ∧ applyEngineFilters fa en sel.1 sel.2 = .ok itemsVal
      ∧ st'.task_results = pyDictSet st.task_results (taskEffName i td) output
      ∧ (∀ xs, itemsVal = .vlist xs → xs ≠ [] → td.batch = false →
          ∃ ys, output = .vlist ys ∧ ys.length = xs.length)
      ∧ (∀ xs, itemsVal = .vlist xs → xs ≠ [] → td.batch = true →
          ∃ ra, output = (runTask (td.type.getD "") ra).getD .vnull)
      ∧ ((∀ xs, itemsVal = .vlist xs → xs = []) →
          ∃ ra, output = (runTask (td.type.getD "") ra).getD .vnull) := by
  unfold runOneTask at h
  cases hty : td.type with
  | none =>
    unfold taskTypeLoads at hload
    rw [hty] at hload
    exact absurd hload (by simp)
  | some ty =>
    have hload2 : (ty ≠ "" && decide (ty ∈ knownTaskTypes)) = true := by
      unfold taskTypeLoads at hload
      rw [hty] at hload
      exact hload
    have hne : ¬ ty = "" := by
      intro he
      rw [he] at hload2
      simp at hload2
    have hmem : ty ∈ knownTaskTypes := by
      by_contra hnm
      simp [hnm] at hload2
    simp only [hty] at h
    rw [if_neg hne, if_neg (not_not_intro hmem)] at h
    obtain ⟨sel, hsel, h⟩ := exceptBind_ok h
    obtain ⟨itemsVal, hitems, h⟩ := exceptBind_ok h
    split at h
    · rename_i xs
      split at h
      · rename_i hxs
        split at h
        · rename_i hbatch
          obtain ⟨output, hexe, h⟩ := exceptBind_ok h
          simp only [pure, Except.pure] at h
          injection h with h
          subst h
          unfold batchExec at hexe
          simp only [] at hexe
          obtain ⟨ra, hra, hexe⟩ := exceptBind_ok hexe
          simp only [pure, Except.pure] at hexe
          injection hexe with hexe
          refine ⟨sel, .vlist xs, output, hsel, hitems, rfl, ?_, ?_, ?_⟩
          · intro xs2 _ _ hbf
            rw [hbatch] at hbf
            exact absurd hbf (by simp)
          · intro xs2 _ _ _
            exact ⟨_, hexe.symm⟩
          · intro hall
            exact absurd (hall xs rfl) hxs
        · rename_i hbatch
          have hb0 : td.batch = false := by simpa using hbatch
          obtain ⟨output, hexe, h⟩ := exceptBind_ok h
          simp only [pure, Except.pure] at h
          injection h with h
          subst h
          cases hfr : fanOutRun (runTask ty)
              (fanOutResolve st.vars td.args xs.length (xs.headD .vnull) (xs.getLastD .vnull))
              xs with
          | error e =>
            rw [hfr] at hexe
            exact absurd hexe (by simp [Except.map])
          | ok ys =>
            rw [hfr] at hexe
            simp only [Except.map] at hexe
            injection hexe with hexe
            have hlen : ys.length = xs.length := by
              unfold fanOutRun at hfr
              obtain ⟨ras, hras, hfr⟩ := exceptBind_ok hfr
              simp only [pure, Except.pure] at hfr
              injection hfr with hfr
              rw [← hfr]
              simp [(exceptMapM_ok_spec _ _ _ hras).1]
            refine ⟨sel, .vlist xs, output, hsel, hitems, rfl, ?_, ?_, ?_⟩
            · intro xs2 hxs2 _ _
              injection hxs2 with hxs2
              exact ⟨ys, hexe.symm, by rw [hlen, hxs2]⟩
            · intro xs2 _ _ hbt
              rw [hb0] at hbt
              exact absurd hbt (by simp)
            · intro hall
              exact absurd (hall xs rfl) hxs
      · rename_i hxs
        obtain ⟨output, hexe, h⟩ := exceptBind_ok h
        simp only [pure, Except.pure] at h
        injection h with h
        subst h
        unfold singleExec at hexe
        simp only [] at hexe
        obtain ⟨ra, hra, hexe⟩ := exceptBind_ok hexe
        simp only [pure, Except.pure] at hexe
        injection hexe with hexe
        have hxe : xs = [] := by simpa using hxs
        refine ⟨sel, .vlist xs, output, hsel, hitems, rfl, ?_, ?_, ?_⟩
        · intro xs2 hxs2 hne2 _
          injection hxs2 with hxs2
          rw [← hxs2, hxe] at hne2
          exact absurd rfl hne2
        · intro xs2 hxs2 hne2 _
          injection hxs2 with hxs2
          rw [← hxs2, hxe] at hne2
          exact absurd rfl hne2
        · intro _
          exact ⟨_, hexe.symm⟩
    · rename_i hnotlist
      obtain ⟨output, hexe, h⟩ := exceptBind_ok h
      simp only [pure, Except.pure] at h
      injection h with h
      subst h
      unfold singleExec at hexe
      simp only [] at hexe
      obtain ⟨ra, hra, hexe⟩ := exceptBind_ok hexe
      simp only [pure, Except.pure] at hexe
      injection hexe with hexe
      refine ⟨sel, itemsVal, output, hsel, hitems, rfl, ?_, ?_, ?_⟩
      · intro xs2 hxs2 _ _
        exact absurd hxs2 (by intro hc; exact hnotlist xs2 hc)
      · intro xs2 hxs2 _ _
        exact absurd hxs2 (by intro hc; exact hnotlist xs2 hc)
      · intro _
        exact ⟨_, hexe.symm⟩

theorem runOneTask_result_shape_witness :
    ∃ st' output ys,
      runOneTask (fun _ v => some v) 1 1 0 ⟨[], [], [], none⟩
          ⟨some "t", some "pathmap", .vdict [], some (.vlist [.vint 1, .vint 2]), none, false⟩
        = .ok st'
      ∧ st'.task_results = pyDictSet ([] : List (String × Val)) "t" output
      ∧ output = .vlist ys ∧ ys.length = 2 := by
  obtain ⟨st', hrun⟩ : ∃ st', runOneTask (fun _ v => some v) 1 1 0 ⟨[], [], [], none⟩
      ⟨some "t", some "pathmap", .vdict [], some (.vlist [.vint 1, .vint 2]), none, false⟩
      = .ok st' := ⟨_, rfl⟩
  obtain ⟨sel, itemsVal, output, hsel, hitems, hreg, h4, _, _⟩ :=
    runOneTask_result_shape (fun _ v => some v) 1 1 0 ⟨[], [], [], none⟩
      ⟨some "t", some "pathmap", .vdict [], some (.vlist [.vint 1, .vint 2]), none, false⟩
      st' rfl hrun
  have hsel3 : selectItems ⟨[], [], [], none⟩ none (some (.vlist [.vint 1, .vint 2]))
      = .ok sel := hsel
  rw [show selectItems (⟨[], [], [], none⟩ : EngineState) none (some (.vlist [.vint 1, .vint 2]))
      = .ok (.vlist [.vint 1, .vint 2], true) from rfl] at hsel3
  injection hsel3 with hsel3
  have hit3 : applyEngineFilters 1 1 (.vlist [.vint 1, .vint 2]) true = .ok itemsVal := by
    rw [← hsel3] at hitems
    exact hitems
  rw [show applyEngineFilters 1 1 (.vlist [.vint 1, .vint 2]) true
      = .ok (.vlist [.vint 1, .vint 2]) from rfl] at hit3
  injection hit3 with hit3
  obtain ⟨ys, hy, hlen⟩ := h4 [.vint 1, .vint 2] hit3.symm (by simp) rfl
  exact ⟨st', output, ys, hrun, hreg, hy, by simpa using hlen⟩

/-- **C8** counterexample.  A batch task *can* register a list: with a
task execution returning a list (as the repository's `pathmap` reduce
mode does — second conjunct), the batch dispatch registers that list
unchanged, so "registered value is a list" does not imply the task
fanned out. -/
theorem batch_list_counterexample :
    (runPlaybookTasks (fun _ _ => some (.vlist [.vint 1])) 1 1 []
        [⟨some "t", some "pathmap", .vdict [], some (.vlist [.vint 1, .vint 2]), none, true⟩]).map
      (fun st => st.task_results) = .ok [("t", .vlist [.vint 1])]
    ∧ pathmapRun (fun _ _ s => s)
        [("items", .vlist [.vstr "x.001.exr"]), ("reduce", .vbool true),
         ("search", .vstr "a"), ("replace", .vstr "b")]
      = .ok (.vlist [.vdict [("files", .vlist [.vstr "x.001.exr"]), ("base_path", .vstr "x")]]) :=
  ⟨rfl, rfl⟩

/-- The integer-arithmetic `limit` of the stride filter is the floor
formula of the specification: `max(min(2, n), floor(n * f))`. -/
theorem kLimit_eq_floor (f : ℚ) (n : ℕ) (hf : 0 ≤ f) :
    (kLimit f n : ℤ) = max (min 2 (n : ℤ)) ⌊(n : ℚ) * f⌋ := by
  have hnum : 0 ≤ f.num := Rat.num_nonneg.mpr hf
  have hden : ((f.den : ℕ) : ℚ) ≠ 0 := by
    exact_mod_cast f.den_nz
  have hfden : f * ((f.den : ℕ) : ℚ) = ((f.num : ℤ) : ℚ) := by
    nth_rewrite 1 [← Rat.num_div_den f]
    field_simp
  have hq : (n : ℚ) * f = (((n : ℤ) * f.num : ℤ) : ℚ) / ((f.den : ℕ) : ℚ) := by
    rw [eq_div_iff hden]
    push_cast
    calc (n : ℚ) * f * ((f.den : ℕ) : ℚ) = (n : ℚ) * (f * ((f.den : ℕ) : ℚ)) := by ring
    _ = (n : ℚ) * ((f.num : ℤ) : ℚ) := by rw [hfden]
  have hfl : ⌊(n : ℚ) * f⌋ = ((n : ℤ) * f.num) / ((f.den : ℤ)) := by
    rw [hq]
    exact Rat.floor_intCast_div_natCast _ _
  rw [hfl]
  unfold kLimit
  push_cast
  rw [Int.toNat_of_nonneg hnum]

/-- The natural-arithmetic banker's rounding of `t / b` agrees with
`pyRound` on the exact rational. -/
theorem pyRoundNat_eq_pyRound (t b : ℕ) (hb : 0 < b) :
    (pyRoundNat t b : ℤ) = pyRound ((t : ℚ) / (b : ℚ)) := by
  have hbq : (0 : ℚ) < (b : ℚ) := by exact_mod_cast hb
  have hfloor : ⌊(t : ℚ) / (b : ℚ)⌋ = ((t / b : ℕ) : ℤ) := by
    have h1 := Rat.floor_intCast_div_natCast (t : ℤ) b
    rw [show (((t : ℤ) : ℚ)) = (t : ℚ) by push_cast; ring] at h1
    rw [h1]
    exact (Int.natCast_div t b).symm
  have hsplit : (t : ℚ) = (b : ℚ) * ((t / b : ℕ) : ℚ) + ((t % b : ℕ) : ℚ) := by
    exact_mod_cast congrArg (fun m : ℕ => (m : ℚ)) (Nat.div_add_mod t b).symm
  have hfrac : (t : ℚ) / (b : ℚ) - (⌊(t : ℚ) / (b : ℚ)⌋ : ℚ) = ((t % b : ℕ) : ℚ) / (b : ℚ) := by
    rw [hfloor, Int.cast_natCast]
    rw [eq_div_iff (ne_of_gt hbq), sub_mul, div_mul_cancel₀ _ (ne_of_gt hbq)]
    linarith [hsplit]
  unfold pyRound pyRoundNat
  by_cases h1 : 2 * (t % b) < b
  · have hc1 : (t : ℚ) / (b : ℚ) - (⌊(t : ℚ) / (b : ℚ)⌋ : ℚ) < 1 / 2 := by
      rw [hfrac, div_lt_div_iff hbq (by norm_num : (0:ℚ) < 2)]
      have : ((2 * (t % b) : ℕ) : ℚ) < ((b : ℕ) : ℚ) := by exact_mod_cast h1
      push_cast at this
      linarith
    rw [if_pos hc1, if_pos h1, hfloor]
  · by_cases h2 : b < 2 * (t % b)
    · have hc1 : ¬ ((t : ℚ) / (b : ℚ) - (⌊(t : ℚ) / (b : ℚ)⌋ : ℚ) < 1 / 2) := by
        rw [hfrac, not_lt, div_le_div_iff (by norm_num : (0:ℚ) < 2) hbq]
        have : ((b : ℕ) : ℚ) < ((2 * (t % b) : ℕ) : ℚ) := by exact_mod_cast h2
        push_cast at this
        linarith
      have hc2 : 1 / 2 < (t : ℚ) / (b : ℚ) - (⌊(t : ℚ) / (b : ℚ)⌋ : ℚ) := by
        rw [hfrac, div_lt_div_iff (by norm_num : (0:ℚ) < 2) hbq]
        have : ((b : ℕ) : ℚ) < ((2 * (t % b) : ℕ) : ℚ) := by exact_mod_cast h2
        push_cast at this
        linarith
      rw [if_neg hc1, if_pos hc2, if_neg (by omega : ¬ 2 * (t % b) < b), if_pos h2, hfloor]
      push_cast
      ring
    · have heq : 2 * (t % b) = b := by omega
      have hc1 : ¬ ((t : ℚ) / (b : ℚ) - (⌊(t : ℚ) / (b : ℚ)⌋ : ℚ) < 1 / 2) := by
        rw [hfrac, not_lt, div_le_div_iff (by norm_num : (0:ℚ) < 2) hbq]
        have : ((2 * (t % b) : ℕ) : ℚ) = ((b : ℕ) : ℚ) := by exact_mod_cast congrArg (fun m : ℕ => (m : ℚ)) heq
        push_cast at this
        linarith
      have hc2 : ¬ (1 / 2 < (t : ℚ) / (b : ℚ) - (⌊(t : ℚ) / (b : ℚ)⌋ : ℚ)) := by
        rw [hfrac, not_lt, div_le_div_iff hbq (by norm_num : (0:ℚ) < 2)]
        have : ((2 * (t % b) : ℕ) : ℚ) = ((b : ℕ) : ℚ) := by exact_mod_cast congrArg (fun m : ℕ => (m : ℚ)) heq
        push_cast at this
        linarith
      rw [if_neg hc1, if_neg hc2, if_neg (by omega : ¬ 2 * (t % b) < b),
        if_neg (by omega : ¬ b < 2 * (t % b)), hfloor]
      by_cases hpar : (t / b) % 2 = 0
      · rw [if_pos hpar, if_pos (by exact_mod_cast (by omega : ((t / b) % 2 : ℕ) = (0 : ℕ)) : ((t / b : ℕ) : ℤ) % 2 = 0)]
      · have hpar2 : ¬ ((t / b : ℕ) : ℤ) % 2 = 0 := by
          intro hc
          apply hpar
          omega
        rw [if_neg hpar, if_neg hpar2]
        push_cast
        ring

/-- Two successive stride picks land on strictly increasing frame
indices (the stride exceeds `1` whenever `k < n`). -/
theorem strideIdx_lt_succ (n k : ℕ) (h2 : 2 ≤ k) (hkn : k < n) (j : ℕ) :
    pyRoundNat (j * (n - 1)) (k - 1) < pyRoundNat ((j + 1) * (n - 1)) (k - 1) := by
  have hb : 0 < k - 1 := by omega
  have hbq : (0 : ℚ) < ((k - 1 : ℕ) : ℚ) := by exact_mod_cast hb
  have hXb : ((k - 1 : ℕ) : ℚ) < ((n - 1 : ℕ) : ℚ) := by
    exact_mod_cast (by omega : k - 1 < n - 1)
  have hqa : ((j * (n - 1) : ℕ) : ℚ) = (j : ℚ) * ((n - 1 : ℕ) : ℚ) := by push_cast; ring
  have hqb : (((j + 1) * (n - 1) : ℕ) : ℚ) = ((j : ℚ) + 1) * ((n - 1 : ℕ) : ℚ) := by
    push_cast
    ring
  have hc1 := pyRoundNat_eq_pyRound (j * (n - 1)) (k - 1) hb
  have hc2 := pyRoundNat_eq_pyRound ((j + 1) * (n - 1)) (k - 1) hb
  have hup := pyRound_le (((j * (n - 1) : ℕ) : ℚ) / ((k - 1 : ℕ) : ℚ))
  have hlo := le_pyRound ((((j + 1) * (n - 1) : ℕ) : ℚ) / ((k - 1 : ℕ) : ℚ))
  have hgap : ((j * (n - 1) : ℕ) : ℚ) / ((k - 1 : ℕ) : ℚ) + 1
      < (((j + 1) * (n - 1) : ℕ) : ℚ) / ((k - 1 : ℕ) : ℚ) := by
    rw [hqa, hqb, div_add' _ _ _ (ne_of_gt hbq), div_lt_div_iff hbq hbq]
    nlinarith [hXb, hbq]
  have hlt : (pyRound (((j * (n - 1) : ℕ) : ℚ) / ((k - 1 : ℕ) : ℚ)) : ℚ)
      < (pyRound ((((j + 1) * (n - 1) : ℕ) : ℚ) / ((k - 1 : ℕ) : ℚ)) : ℚ) := by
    linarith
  have hzlt : pyRound (((j * (n - 1) : ℕ) : ℚ) / ((k - 1 : ℕ) : ℚ))
      < pyRound ((((j + 1) * (n - 1) : ℕ) : ℚ) / ((k - 1 : ℕ) : ℚ)) := by
    exact_mod_cast hlt
  rw [← hc1, ← hc2] at hzlt
  exact_mod_cast hzlt

/-- A stride pick within range stays at most `n - 1`. -/
theorem strideIdx_le (n k : ℕ) (h2 : 2 ≤ k) (hkn : k < n) (j : ℕ) (hj : j < k) :
    pyRoundNat (j * (n - 1)) (k - 1) ≤ n - 1 := by
  have hb : 0 < k - 1 := by omega
  have hbq : (0 : ℚ) < ((k - 1 : ℕ) : ℚ) := by exact_mod_cast hb
  have hc1 := pyRoundNat_eq_pyRound (j * (n - 1)) (k - 1) hb
  have hup := pyRound_le (((j * (n - 1) : ℕ) : ℚ) / ((k - 1 : ℕ) : ℚ))
  have hq : ((j * (n - 1) : ℕ) : ℚ) / ((k - 1 : ℕ) : ℚ) ≤ ((n - 1 : ℕ) : ℚ) := by
    rw [div_le_iff hbq]
    have hj2 : ((j : ℕ) : ℚ) ≤ ((k - 1 : ℕ) : ℚ) := by exact_mod_cast (by omega : j ≤ k - 1)
    have hn0 : (0 : ℚ) ≤ ((n - 1 : ℕ) : ℚ) := by positivity
    have : ((j * (n - 1) : ℕ) : ℚ) = (j : ℚ) * ((n - 1 : ℕ) : ℚ) := by push_cast; ring
    rw [this]
    nlinarith
  have hlt : (pyRound (((j * (n - 1) : ℕ) : ℚ) / ((k - 1 : ℕ) : ℚ)) : ℚ)
      < ((n - 1 : ℕ) : ℚ) + 1 := by linarith
  have hzle : pyRound (((j * (n - 1) : ℕ) : ℚ) / ((k - 1 : ℕ) : ℚ)) < ((n - 1 : ℕ) : ℤ) + 1 := by
    exact_mod_cast hlt
  rw [← hc1] at hzle
  exact_mod_cast Int.lt_add_one_iff.mp hzle

/-- From pick `k` on, the unclamped stride index escapes the list. -/
theorem strideIdx_ge (n k : ℕ) (h2 : 2 ≤ k) (hkn : k < n) (j : ℕ) (hj : k ≤ j) :
    n ≤ pyRoundNat (j * (n - 1)) (k - 1) := by
  have hb : 0 < k - 1 := by omega
  have hbq : (0 : ℚ) < ((k - 1 : ℕ) : ℚ) := by exact_mod_cast hb
  have hc1 := pyRoundNat_eq_pyRound (j * (n - 1)) (k - 1) hb
  have hlo := le_pyRound (((j * (n - 1) : ℕ) : ℚ) / ((k - 1 : ℕ) : ℚ))
  have hXb : ((k - 1 : ℕ) : ℚ) < ((n - 1 : ℕ) : ℚ) := by
    exact_mod_cast (by omega : k - 1 < n - 1)
  have hX0 : (0 : ℚ) < ((n - 1 : ℕ) : ℚ) := lt_trans hbq hXb
  have hJK : ((k - 1 : ℕ) : ℚ) + 1 ≤ (j : ℚ) := by
    have : k - 1 + 1 ≤ j := by omega
    exact_mod_cast this
  have hq : ((n - 1 : ℕ) : ℚ) + 1 < ((j * (n - 1) : ℕ) : ℚ) / ((k - 1 : ℕ) : ℚ) := by
    rw [lt_div_iff hbq]
    have hcast : ((j * (n - 1) : ℕ) : ℚ) = (j : ℚ) * ((n - 1 : ℕ) : ℚ) := by push_cast; ring
    rw [hcast]
    calc (((n - 1 : ℕ) : ℚ) + 1) * ((k - 1 : ℕ) : ℚ)
        = ((n - 1 : ℕ) : ℚ) * ((k - 1 : ℕ) : ℚ) + ((k - 1 : ℕ) : ℚ) := by ring
      _ < ((n - 1 : ℕ) : ℚ) * ((k - 1 : ℕ) : ℚ) + ((n - 1 : ℕ) : ℚ) := by linarith
      _ = (((k - 1 : ℕ) : ℚ) + 1) * ((n - 1 : ℕ) : ℚ) := by ring
      _ ≤ (j : ℚ) * ((n - 1 : ℕ) : ℚ) := mul_le_mul_of_nonneg_right hJK hX0.le
  have hgt : ((n - 1 : ℕ) : ℚ) < (pyRound (((j * (n - 1) : ℕ) : ℚ) / ((k - 1 : ℕ) : ℚ)) : ℚ) := by
    linarith
  have hzgt : ((n - 1 : ℕ) : ℤ) < pyRound (((j * (n - 1) : ℕ) : ℚ) / ((k - 1 : ℕ) : ℚ)) := by
    exact_mod_cast hgt
  rw [← hc1] at hzgt
  have hfin : n - 1 < pyRoundNat (j * (n - 1)) (k - 1) := by exact_mod_cast hzgt
  omega

/-- Within range, the stride index is exactly the banker's rounding of
`j * (n-1) / (k-1)` — the clamp `min(..., n-1)` never bites. -/
theorem strideIndex_eq (n k j : ℕ) (h2 : 2 ≤ k) (hkn : k < n) (hj : j < k) :
    (strideIndex n k j : ℤ) = pyRound ((j : ℚ) * ((n : ℚ) - 1) / ((k : ℚ) - 1)) := by
  have hb : 0 < k - 1 := by omega
  unfold strideIndex
  rw [if_neg (by omega : ¬ (n - 1 ≤ k - 1))]
  rw [min_eq_left (strideIdx_le n k h2 hkn j hj)]
  rw [pyRoundNat_eq_pyRound _ _ hb]
  congr 1
  push_cast [Nat.cast_sub (by omega : 1 ≤ k), Nat.cast_sub (by omega : 1 ≤ n)]
  ring

/-- The dedup-append fold over pairwise-fresh elements appends them
all. -/
theorem dedupFold_eq :
    ∀ (ps acc : List Val), (acc ++ ps).Nodup →
      ps.foldl (fun cur x => if x ∈ cur then cur else cur ++ [x]) acc = acc ++ ps := by
  intro ps
  induction ps with
  | nil =>
    intro acc _
    simp
  | cons x rest ih =>
    intro acc h
    rw [List.foldl_cons]
    have hx : ¬ x ∈ acc := by
      intro hc
      exact (List.disjoint_of_nodup_append h) hc (by simp)
    rw [if_neg hx]
    have h2 : ((acc ++ [x]) ++ rest).Nodup := by simpa using h
    rw [ih (acc ++ [x]) h2]
    simp

/-- The pick loop, when its picks are distinct and fresh, appends the
picked frames in order. -/
theorem pickLoop_eq (seqItems : List Val) (n k : ℕ) (acc : List Val)
    (h : (acc ++ (List.range k).map (fun j => seqItems.getD (strideIndex n k j) .vnull)).Nodup) :
    pickLoop seqItems n k acc
      = acc ++ (List.range k).map (fun j => seqItems.getD (strideIndex n k j) .vnull) := by
  have h2 := dedupFold_eq
    ((List.range k).map (fun j => seqItems.getD (strideIndex n k j) .vnull)) acc h
  rw [List.foldl_map] at h2
  exact h2

/-- Per-shot behaviour of the stride filter on a duplicate-free shot:
with a fresh accumulator the step appends exactly the per-shot sample,
and that sample is a nonempty subsequence of the shot of length
`min(limit, n)`. -/
theorem perShotSample_pickLoop (f : ℚ) (seqItems : List Val) (acc : List Val)
    (hnd : (acc ++ seqItems).Nodup) :
    (if seqItems.length ≤ kLimit f seqItems.length then acc ++ seqItems
      else pickLoop seqItems seqItems.length (kLimit f seqItems.length) acc)
      = acc ++ perShotSample f seqItems
    ∧ (perShotSample f seqItems).Sublist seqItems
    ∧ (seqItems ≠ [] → perShotSample f seqItems ≠ [])
    ∧ (perShotSample f seqItems).length = min (kLimit f seqItems.length) seqItems.length := by
  have hseq : seqItems.Nodup := hnd.of_append_right
  by_cases hcov : seqItems.length ≤ kLimit f seqItems.length
  · rw [if_pos hcov]
    unfold perShotSample
    rw [if_pos hcov]
    exact ⟨rfl, List.Sublist.refl _, fun h => h, (min_eq_right hcov).symm⟩
  · have hlim : kLimit f seqItems.length < seqItems.length := by omega
    have hminle : min 2 seqItems.length ≤ kLimit f seqItems.length := by
      unfold kLimit
      exact le_max_left _ _
    have hn3 : 3 ≤ seqItems.length := by
      rcases le_or_lt seqItems.length 2 with hle | hgt
      · rw [min_eq_right hle] at hminle
        omega
      · omega
    have h2 : 2 ≤ kLimit f seqItems.length := by
      rw [min_eq_left (by omega : 2 ≤ seqItems.length)] at hminle
      exact hminle
    have hmono : StrictMono
        (fun j => pyRoundNat (j * (seqItems.length - 1)) (kLimit f seqItems.length - 1)) :=
      strictMono_nat_of_lt_succ (fun j => strideIdx_lt_succ seqItems.length _ h2 hlim j)
    have hclamp : ∀ j, strideIndex seqItems.length (kLimit f seqItems.length) j
        = min (pyRoundNat (j * (seqItems.length - 1)) (kLimit f seqItems.length - 1))
            (seqItems.length - 1) := by
      intro j
      unfold strideIndex
      rw [if_neg (by omega : ¬ (seqItems.length - 1 ≤ kLimit f seqItems.length - 1))]
    have hf : ∀ ix : ℕ,
        ((List.range (kLimit f seqItems.length)).map
            (fun j => seqItems.getD (strideIndex seqItems.length (kLimit f seqItems.length) j) .vnull)).get? ix
          = seqItems.get? (pyRoundNat (ix * (seqItems.length - 1)) (kLimit f seqItems.length - 1)) := by
      intro ix
      by_cases hix : ix < kLimit f seqItems.length
      · rw [List.get?_map, List.get?_range hix]
        have hle := strideIdx_le seqItems.length _ h2 hlim ix hix
        have hlt : pyRoundNat (ix * (seqItems.length - 1)) (kLimit f seqItems.length - 1)
            < seqItems.length := by omega
        rw [List.get?_eq_get hlt]
        simp only [Option.map_some']
        congr 1
        rw [hclamp ix, min_eq_left hle]
        rw [List.getD_eq_getElem seqItems _ hlt]
        simp [List.get_eq_getElem]
      · rw [List.get?_eq_none.mpr (by simp; omega),
          List.get?_eq_none.mpr (strideIdx_ge seqItems.length _ h2 hlim ix (by omega))]
    have hsub0 : ((List.range (kLimit f seqItems.length)).map
        (fun j => seqItems.getD (strideIndex seqItems.length (kLimit f seqItems.length) j) .vnull)).Sublist
          seqItems := by
      apply List.sublist_of_orderEmbedding_get?_eq (OrderEmbedding.ofStrictMono _ hmono)
      intro ix
      simpa [OrderEmbedding.ofStrictMono] using hf ix
    have hpicksnd := hsub0.nodup hseq
    have haccp : (acc ++ (List.range (kLimit f seqItems.length)).map
        (fun j => seqItems.getD (strideIndex seqItems.length (kLimit f seqItems.length) j) .vnull)).Nodup :=
      ((List.Sublist.refl acc).append hsub0).nodup hnd
    rw [if_neg hcov]
    unfold perShotSample
    rw [if_neg hcov]
    rw [pickLoop_eq seqItems seqItems.length (kLimit f seqItems.length) acc haccp,
      pickLoop_eq seqItems seqItems.length (kLimit f seqItems.length) [] (by simpa using hpicksnd)]
    refine ⟨by simp, by simpa using hsub0, ?_, ?_⟩
    · intro _
      simp only [List.nil_append]
      intro hc
      simp at hc
      omega
    · simp only [List.nil_append, List.length_map, List.length_range]
      rw [min_eq_left hlim.le]

/-- The per-group sampling loop over duplicate-free, pairwise-disjoint
groups concatenates the per-shot samples in group order. -/
theorem samplePass_eq (f : ℚ) :
    ∀ (gs : List (GKey × List Val)) (acc : List Val),
      (acc ++ gs.flatMap (fun g => g.2)).Nodup →
      samplePass f gs acc = acc ++ gs.flatMap (fun g => perShotSample f g.2) := by
  intro gs
  induction gs with
  | nil =>
    intro acc _
    simp [samplePass]
  | cons g rest ih =>
    intro acc h
    obtain ⟨kk, seqItems⟩ := g
    have hnd2 : (acc ++ seqItems).Nodup := by
      have hsub : (acc ++ seqItems).Sublist
          (acc ++ (seqItems ++ rest.flatMap (fun g => g.2))) :=
        (List.Sublist.refl acc).append (List.sublist_append_left _ _)
      exact hsub.nodup (by simpa using h)
    obtain ⟨hstep, hsubl, _, _⟩ := perShotSample_pickLoop f seqItems acc hnd2
    rw [samplePass]
    by_cases hcov : seqItems.length ≤ kLimit f seqItems.length
    · rw [if_pos hcov]
      rw [if_pos hcov] at hstep
      have hps : perShotSample f seqItems = seqItems := by
        unfold perShotSample
        rw [if_pos hcov]
      have hih := ih (acc ++ seqItems) (by simpa [List.append_assoc] using h)
      rw [hih]
      simp [List.cons_bind, List.append_assoc, hps]
    · rw [if_neg hcov]
      rw [if_neg hcov] at hstep
      rw [hstep]
      have hub : ((acc ++ perShotSample f seqItems) ++ rest.flatMap (fun g => g.2)).Sublist
          ((acc ++ seqItems) ++ rest.flatMap (fun g => g.2)) :=
        ((List.Sublist.refl acc).append hsubl).append (List.Sublist.refl _)
      have hih := ih (acc ++ perShotSample f seqItems)
        (hub.nodup (by simpa [List.append_assoc] using h))
      rw [hih]
      simp [List.cons_bind, List.append_assoc]

/-- Stable insertion produces a permutation of consing. -/
theorem insertLt_perm {α : Type} (lt : α → α → Bool) (x : α) :
    ∀ l : List α, (insertLt lt x l).Perm (x :: l) := by
  intro l
  induction l with
  | nil => exact List.Perm.refl _
  | cons y ys ih =>
    rw [insertLt]
    split
    · exact List.Perm.refl _
    · exact (ih.cons y).trans (List.Perm.swap x y ys)

/-- Insertion sort permutes its input. -/
theorem sortByLt_perm {α : Type} (lt : α → α → Bool) (l : List α) :
    (sortByLt lt l).Perm l := by
  suffices h : ∀ (l2 acc : List α),
      (l2.foldl (fun acc x => insertLt lt x acc) acc).Perm (l2 ++ acc) by
    have := h l []
    simpa [sortByLt] using this
  intro l2
  induction l2 with
  | nil =>
    intro acc
    simp
  | cons x xs ih =>
    intro acc
    rw [List.foldl_cons]
    refine (ih (insertLt lt x acc)).trans ?_
    refine (List.Perm.append_left xs (insertLt_perm lt x acc)).trans ?_
    exact List.perm_middle

/-- Membership in the first-occurrence key list. -/
theorem uniqueKeysAux_mem {α : Type} [DecidableEq α] :
    ∀ (l seen : List α) (x : α),
      x ∈ uniqueKeysAux seen l ↔ x ∈ l ∧ ¬ x ∈ seen := by
  intro l
  induction l with
  | nil =>
    intro seen x
    simp [uniqueKeysAux]
  | cons k rest ih =>
    intro seen x
    rw [uniqueKeysAux]
    by_cases hk : k ∈ seen
    · rw [if_pos hk, ih]
      constructor
      · rintro ⟨h1, h2⟩
        exact ⟨by simp [h1], h2⟩
      · rintro ⟨h1, h2⟩
        rcases List.mem_cons.mp h1 with he | hm
        · subst he
          exact absurd hk h2
        · exact ⟨hm, h2⟩
    · rw [if_neg hk]
      constructor
      · intro hmem
        rcases List.mem_cons.mp hmem with he | hm
        · subst he
          exact ⟨by simp, hk⟩
        · obtain ⟨h1, h2⟩ := (ih (k :: seen) x).mp hm
          exact ⟨by simp [h1], fun hc => h2 (by simp [hc])⟩
      · rintro ⟨h1, h2⟩
        rcases List.mem_cons.mp h1 with he | hm
        · subst he
          simp
        · by_cases hxk : x = k
          · subst hxk
            simp
          · have hin := (ih (k :: seen) x).mpr ⟨hm, by simp [hxk, h2]⟩
            simp [hin]

/-- The first-occurrence key list has no duplicates. -/
theorem uniqueKeysAux_nodup {α : Type} [DecidableEq α] :
    ∀ (l seen : List α), (uniqueKeysAux seen l).Nodup := by
  intro l
  induction l with
  | nil =>
    intro seen
    simp [uniqueKeysAux]
  | cons k rest ih =>
    intro seen
    rw [uniqueKeysAux]
    by_cases hk : k ∈ seen
    · rw [if_pos hk]
      exact ih seen
    · rw [if_neg hk]
      refine List.nodup_cons.mpr ⟨?_, ih (k :: seen)⟩
      intro hc
      exact ((uniqueKeysAux_mem rest (k :: seen) k).mp hc).2 (by simp)

/-- Collecting the groups of every key once, in any duplicate-free
order covering all keys, permutes the keyed list. -/
theorem bind_filter_perm {α β : Type} [DecidableEq α] :
    ∀ (ks : List α) (l : List (α × β)), ks.Nodup → (∀ p ∈ l, p.1 ∈ ks) →
      (ks.flatMap (fun k => l.filter (fun p => decide (p.1 = k)))).Perm l := by
  intro ks
  induction ks with
  | nil =>
    intro l _ hcov
    cases l with
    | nil => simp
    | cons p rest => exact absurd (hcov p (by simp)) (by simp)
  | cons k ks' ih =>
    intro l hnd hcov
    have hsplit0 : (k :: ks').flatMap (fun k2 => l.filter (fun p => decide (p.1 = k2)))
        = l.filter (fun p => decide (p.1 = k))
          ++ ks'.flatMap (fun k2 => l.filter (fun p => decide (p.1 = k2))) := rfl
    rw [hsplit0]
    have hcov' : ∀ p ∈ l.filter (fun p => !(decide (p.1 = k))), p.1 ∈ ks' := by
      intro p hp
      rw [List.mem_filter] at hp
      have h1 := hcov p hp.1
      have h2 : ¬ p.1 = k := by simpa using hp.2
      rcases List.mem_cons.mp h1 with he | hm
      · exact absurd he h2
      · exact hm
    have hknotin := (List.nodup_cons.mp hnd).1
    have hnd' := (List.nodup_cons.mp hnd).2
    have hbindeq : ks'.flatMap (fun k2 => l.filter (fun p => decide (p.1 = k2)))
        = ks'.flatMap (fun k2 => (l.filter (fun p => !(decide (p.1 = k)))).filter
            (fun p => decide (p.1 = k2))) := by
      apply List.bind_congr
      intro k2 hk2
      rw [List.filter_filter]
      apply List.filter_congr
      intro p _
      by_cases hpk2 : p.1 = k2
      · have hpk : ¬ p.1 = k := by
          rw [hpk2]
          intro hc
          exact hknotin (hc ▸ hk2)
        simp [hpk2, hpk]
        intro hc
        exact hknotin (hc ▸ hk2)
      · simp [hpk2]
    rw [hbindeq]
    refine (List.Perm.append_left _ (ih _ hnd' hcov')).trans ?_
    exact List.filter_append_perm _ l

/-- A successful grouping partitions the input: the concatenation of
the groups permutes the item list, and no group is empty. -/
theorem groupedItems_spec (items : List Val) (gs : List (GKey × List Val))
    (h : groupedItems items = .ok gs) :
    (gs.flatMap (fun g => g.2)).Perm items ∧ ∀ g ∈ gs, g.2 ≠ [] := by
  unfold groupedItems at h
  obtain ⟨keyed, hkeyed, h⟩ := exceptBind_ok h
  simp only [pure, Except.pure] at h
  injection h with h
  obtain ⟨hlen, helem⟩ := exceptMapM_ok_spec _ _ _ hkeyed
  have hsnd : keyed.map Prod.snd = items := by
    apply List.ext_getElem
    · simp [hlen]
    · intro i h1 h2
      rw [List.getElem_map]
      have hik : i < keyed.length := by simpa using h1
      have hie : i < items.enum.length := by simp [h2]
      have hfe := helem i hie hik
      obtain ⟨kk, _, hfe⟩ := exceptBind_ok hfe
      simp only [pure, Except.pure] at hfe
      injection hfe with hfe
      rw [← hfe]
      simp [List.getElem_enum]
  have hkeysnd : (uniqueKeysAux ([] : List GKey) (keyed.map Prod.fst)).Nodup :=
    uniqueKeysAux_nodup _ _
  have hkeysnodup : (sortByLt gkeyLt (uniqueKeysInOrder (keyed.map Prod.fst))).Nodup :=
    ((sortByLt_perm gkeyLt _).nodup_iff).mpr hkeysnd
  have hcov : ∀ p ∈ keyed, p.1 ∈ sortByLt gkeyLt (uniqueKeysInOrder (keyed.map Prod.fst)) := by
    intro p hp
    rw [(sortByLt_perm gkeyLt _).mem_iff]
    unfold uniqueKeysInOrder
    rw [uniqueKeysAux_mem]
    exact ⟨List.mem_map_of_mem _ hp, by simp⟩
  have hperm := bind_filter_perm (sortByLt gkeyLt (uniqueKeysInOrder (keyed.map Prod.fst)))
    keyed hkeysnodup hcov
  constructor
  · have hbmap : gs.flatMap (fun g => g.2)
        = ((sortByLt gkeyLt (uniqueKeysInOrder (keyed.map Prod.fst))).flatMap
            (fun k => keyed.filter (fun p => decide (p.1 = k)))).map Prod.snd := by
      rw [← h]
      rw [List.map_bind]
      rw [List.bind_map]
    rw [hbmap, ← hsnd]
    exact List.Perm.map Prod.snd hperm
  · intro g hg
    rw [← h] at hg
    rw [List.mem_map] at hg
    obtain ⟨k, hk, hgdef⟩ := hg
    have hkmem : k ∈ keyed.map Prod.fst := by
      have := ((sortByLt_perm gkeyLt _).mem_iff).mp hk
      unfold uniqueKeysInOrder at this
      rw [uniqueKeysAux_mem] at this
      exact this.1
    rw [List.mem_map] at hkmem
    obtain ⟨p, hp, hpk⟩ := hkmem
    rw [← hgdef]
    simp only [ne_eq, List.map_eq_nil_iff]
    intro hc
    have : p ∈ keyed.filter (fun q => decide (q.1 = k)) := by
      rw [List.mem_filter]
      exact ⟨hp, by simp [hpk]⟩
    rw [hc] at this
    exact absurd this (by simp)

/-- A member's block of a duplicate-free concatenation is itself
duplicate-free. -/
theorem nodup_of_mem_flatMap {α β : Type} (f : α → List β) :
    ∀ (l : List α) (x : α), x ∈ l → (l.flatMap f).Nodup → (f x).Nodup := by
  intro l
  induction l with
  | nil =>
    intro x hx _
    exact absurd hx (by simp)
  | cons y rest ih =>
    intro x hx hnd
    rw [List.flatMap_cons] at hnd
    rcases List.mem_cons.mp hx with he | hm
    · subst he
      exact hnd.of_append_left
    · exact ih x hm hnd.of_append_right

/-- **C1** (corrected).  On duplicate-free input the `file_amount`
stride filter keeps, per shot, the frames at indices
`round(j * (n-1)/(k-1))` for `j < k` with
`k = max(min(2, n), floor(n * f))` (all frames when `k ≥ n`): every
shot contributes a nonempty subsequence of itself of length
`min(k, n)` — so order *within* a shot is preserved and no shot is
dropped — and the output is a subset of the input.  But the output is
the concatenation of the per-shot samples in **sorted group-key
order**, not in input order (see the counterexample), and duplicate
items would additionally be collapsed by the identity-free dedup. -/
theorem fileAmountFilter_spec (f : ℚ) (items out : List Val) (gs : List (GKey × List Val))
    (hf0 : 0 < f) (hf1 : f < 1) (hnd : items.Nodup)
    (hg : groupedItems items = .ok gs)
    (h : fileAmountFilter f items = .ok out) :
    out = gs.flatMap (fun g => perShotSample f g.2)
    ∧ (∀ g ∈ gs, g.2 ≠ [] ∧ (perShotSample f g.2).Sublist g.2
        ∧ perShotSample f g.2 ≠ []
        ∧ (perShotSample f g.2).length = min (kLimit f g.2.length) g.2.length)
    ∧ (∀ x ∈ out, x ∈ items)
    ∧ (∀ n : ℕ, (kLimit f n : ℤ) = max (min 2 (n : ℤ)) ⌊(n : ℚ) * f⌋)
    ∧ (∀ n k j : ℕ, 2 ≤ k → k < n → j < k →
        (strideIndex n k j : ℤ) = pyRound ((j : ℚ) * ((n : ℚ) - 1) / ((k : ℚ) - 1))) := by
  obtain ⟨hperm, hne⟩ := groupedItems_spec items gs hg
  have hbindnd : (gs.flatMap (fun g => g.2)).Nodup := (hperm.nodup_iff).mpr hnd
  have hout : out = samplePass f gs [] := by
    unfold fileAmountFilter at h
    rw [hg] at h
    simp only [bind, Except.bind, pure, Except.pure] at h
    injection h with h
    exact h.symm
  have hsp := samplePass_eq f gs [] (by simpa using hbindnd)
  have houtbind : out = gs.flatMap (fun g => perShotSample f g.2) := by
    rw [hout, hsp]
    simp
  refine ⟨houtbind, fun g hg2 => ?_, fun x hx => ?_, fun n => kLimit_eq_floor f n hf0.le,
    fun n k j h2 hkn hj => strideIndex_eq n k j h2 hkn hj⟩
  · have hgnd : g.2.Nodup := nodup_of_mem_flatMap _ gs g hg2 hbindnd
    obtain ⟨_, hsub, hne2, hlen⟩ := perShotSample_pickLoop f g.2 [] (by simpa using hgnd)
    exact ⟨hne g hg2, hsub, hne2 (hne g hg2), hlen⟩
  · rw [houtbind] at hx
    rw [List.mem_flatMap] at hx
    obtain ⟨g, hg2, hxg⟩ := hx
    have hsub := (perShotSample_pickLoop f g.2 []
        (by simpa using (nodup_of_mem_flatMap _ gs g hg2 hbindnd))).2.1
    have hxitems : x ∈ gs.flatMap (fun g => g.2) := by
      rw [List.mem_flatMap]
      exact ⟨g, hg2, hsub.subset hxg⟩
    exact hperm.mem_iff.mp hxitems

theorem fileAmountFilter_spec_witness :
    (0 : ℚ) < mkRat 1 2 ∧ mkRat 1 2 < 1
    ∧ ∃ gs out,
      groupedItems [Val.vstr "s.001.exr", .vstr "s.002.exr", .vstr "s.003.exr", .vstr "s.004.exr"]
          = .ok gs
      ∧ fileAmountFilter (mkRat 1 2)
          [Val.vstr "s.001.exr", .vstr "s.002.exr", .vstr "s.003.exr", .vstr "s.004.exr"]
          = .ok out
      ∧ out = gs.flatMap (fun g => perShotSample (mkRat 1 2) g.2)
      ∧ out = [Val.vstr "s.001.exr", .vstr "s.004.exr"] := by
  refine ⟨by norm_num [Rat.mkRat_eq_div], by norm_num [Rat.mkRat_eq_div], ?_⟩
  obtain ⟨gs, hg⟩ : ∃ gs,
      groupedItems [Val.vstr "s.001.exr", .vstr "s.002.exr", .vstr "s.003.exr", .vstr "s.004.exr"]
        = .ok gs := ⟨_, rfl⟩
  obtain ⟨out, hout⟩ : ∃ out, fileAmountFilter (mkRat 1 2)
      [Val.vstr "s.001.exr", .vstr "s.002.exr", .vstr "s.003.exr", .vstr "s.004.exr"]
        = .ok out := ⟨_, rfl⟩
  have hspec := fileAmountFilter_spec (mkRat 1 2)
    [Val.vstr "s.001.exr", .vstr "s.002.exr", .vstr "s.003.exr", .vstr "s.004.exr"] out gs
    (by norm_num [Rat.mkRat_eq_div]) (by norm_num [Rat.mkRat_eq_div]) (by decide) hg hout
  refine ⟨gs, out, hg, hout, hspec.1, ?_⟩
  have hconc : fileAmountFilter (mkRat 1 2)
      [Val.vstr "s.001.exr", .vstr "s.002.exr", .vstr "s.003.exr", .vstr "s.004.exr"]
      = .ok [Val.vstr "s.001.exr", .vstr "s.004.exr"] := rfl
  rw [hconc] at hout
  injection hout with hout
  exact hout.symm

/-- **C1** counterexample.  With two single-frame shots listed as
`[b.001.exr, a.001.exr]` and `file_amount = 1/2`, the filter returns
`[a.001.exr, b.001.exr]`: the shots are emitted in sorted group-key
order, so the output does **not** preserve the input order (it is not a
subsequence of the input). -/
theorem fileAmountFilter_order_counterexample :
    (0 : ℚ) < mkRat 1 2 ∧ mkRat 1 2 < 1
    ∧ fileAmountFilter (mkRat 1 2) [Val.vstr "b.001.exr", .vstr "a.001.exr"]
        = .ok [Val.vstr "a.001.exr", .vstr "b.001.exr"]
    ∧ ¬ ([Val.vstr "a.001.exr", Val.vstr "b.001.exr"].Sublist
          [Val.vstr "b.001.exr", Val.vstr "a.001.exr"]) :=
  ⟨by norm_num [Rat.mkRat_eq_div], by norm_num [Rat.mkRat_eq_div], rfl, by decide⟩
